import Mathlib

/-!
# Verification of the markdown preprocessing of `report_draft_beta`

Shallow embedding of the text-rewriting pipeline of
`src/converter.py` (`convert_md_to_docx`), of the retry loops of
`src/util.py` (`ocr`, `gen_draft`), and of the docx style
post-processing loops of `src/converter.py`.

A document is modelled as a list of lines and a line as a list of
characters (the Python code splits the input with `text.splitlines()`
and joins the result with `"\n".join(final_lines)`).  The
regular-expression tests of the source are embedded as executable
boolean functions; each doc-comment names the source construct the
definition embeds and, where a regex is replaced by a structural
characterisation, why the two agree.
-/

namespace ReportDraft

/-- A line of text: the Python code operates on `str` lines obtained
from `text.splitlines()`. -/
abbrev Line := List Char

/-- Whitespace as accepted by Python's `\s` and `str.strip()` in the
ASCII range: space, tab, newline, carriage return, vertical tab, form
feed.  (Python additionally accepts rarer Unicode whitespace; the
model covers the ASCII fragment.) -/
def isSpace (c : Char) : Bool :=
  c = ' ' || c = '\t' || c = '\n' || c = '\r' || c = '\x0b' || c = '\x0c'

/-- The block-math marker `$$`. -/
def dd : List Char := ['$', '$']

/-- Python `line.lstrip()`. -/
def lstripL (l : Line) : Line := l.dropWhile isSpace

/-- Python `line.rstrip()`. -/
def rstripL (l : Line) : Line := (l.reverse.dropWhile isSpace).reverse

/-- Python `line.strip()`. -/
def trimB (l : Line) : Line := rstripL (lstripL l)

/-- Python `line.strip() == ""`: the line is whitespace only. -/
def isBlank (l : Line) : Bool := l.all isSpace

/-- `re.match(r"^\s*\$\$\s*$", line)` (converter.py lines 49 and 52)
used as a boolean: the line is optional whitespace, `$$`, optional
whitespace — equivalently, stripping whitespace leaves exactly `$$`. -/
def isMarker (l : Line) : Bool := trimB l = dd

/-- `re.match(r"^\s*\$\$(.+?)\$\$\s*$", line)` (converter.py line 81)
used as a boolean: a match exists iff the stripped line starts with
`$$`, ends with `$$`, and is at least 5 characters long, so that the
mandatory non-empty group `(.+?)` fits between the two markers (the
laziness of the group affects which match is chosen, not whether one
exists). -/
def isLineDisplay (l : Line) : Bool :=
  decide (5 ≤ (trimB l).length) && dd.isPrefixOf (trimB l) && dd.isSuffixOf (trimB l)

/-- Split a character list at the first occurrence of the substring
`$$`: `splitAtDD l = some (p, q)` means `l = p ++ '$' :: '$' :: q`
with the shown occurrence the leftmost.  This embeds the Python
substring test `"$$" in line` (converter.py line 100) and the
leftmost/lazy scan of `re.sub(r"\$\$(.+?)\$\$", …)` (line 103). -/
def splitAtDD : List Char → Option (List Char × List Char)
  | [] => none
  | a :: rest =>
    if a = '$' ∧ rest.head? = some '$' then some ([], rest.tail)
    else (splitAtDD rest).map (fun p => (a :: p.1, p.2))

/-- Python `"$$" in line` (converter.py line 100). -/
def containsDD (l : List Char) : Bool := (splitAtDD l).isSome

/-- The lazy search for a closing marker in
`re.sub(r"\$\$(.+?)\$\$", …)`: after an opening `$$` the group
`(.+?)` takes one mandatory character and then the shortest extension
after which `$$` follows.  `splitCloser rest = some (c, post)` means
`rest = c ++ '$' :: '$' :: post` with `c` the shortest non-empty such
content. -/
def splitCloser : List Char → Option (List Char × List Char)
  | [] => none
  | a :: rest =>
    match splitAtDD rest with
    | some (p, q) => some (a :: p, q)
    | none => none

theorem splitAtDD_eq_some : ∀ {l p q : List Char},
    splitAtDD l = some (p, q) → l = p ++ '$' :: '$' :: q := by
  intro l
  induction l with
  | nil => intro p q h; simp [splitAtDD] at h
  | cons a rest ih =>
    intro p q h
    simp only [splitAtDD] at h
    split at h
    · rename_i hc
      obtain ⟨ha, hh⟩ := hc
      cases rest with
      | nil => simp at hh
      | cons b r =>
        simp only [List.head?_cons, Option.some.injEq] at hh
        simp only [List.tail_cons, Option.some.injEq, Prod.mk.injEq] at h
        obtain ⟨hp, hq⟩ := h
        subst ha hh hp hq
        rfl
    · cases hsd : splitAtDD rest with
      | none => rw [hsd] at h; simp at h
      | some pq =>
        rw [hsd] at h
        simp only [Option.map_some', Option.some.injEq, Prod.mk.injEq] at h
        obtain ⟨hp, hq⟩ := h
        have := ih (p := pq.1) (q := pq.2) (by rw [hsd])
        subst hp hq
        simp [this]

theorem splitCloser_eq_some : ∀ {l c post : List Char},
    splitCloser l = some (c, post) →
    l = c ++ '$' :: '$' :: post ∧ c ≠ [] := by
  intro l c post h
  cases l with
  | nil => simp [splitCloser] at h
  | cons a rest =>
    simp only [splitCloser] at h
    cases hsd : splitAtDD rest with
    | none => rw [hsd] at h; simp at h
    | some pq =>
      rw [hsd] at h
      simp only [Option.some.injEq, Prod.mk.injEq] at h
      obtain ⟨hc, hq⟩ := h
      have := splitAtDD_eq_some (l := rest) (p := pq.1) (q := pq.2) (by rw [hsd])
      subst hc hq
      simp [this]

theorem splitCloser_length {l c post : List Char}
    (h : splitCloser l = some (c, post)) : post.length + 3 ≤ l.length := by
  obtain ⟨hl, hc⟩ := splitCloser_eq_some h
  subst hl
  cases c with
  | nil => exact absurd rfl hc
  | cons x xs => simp

/-- Embeds `re.sub(r"\$\$(.+?)\$\$", inline_replacer, line)`
(converter.py lines 95–103): scan left to right; at the leftmost `$$`
find the shortest non-empty content followed by `$$` and replace the
whole `$$…$$` by `$…$`, then continue after the replaced part; a `$$`
with no closing pair is kept and scanning resumes after it (the regex
cannot match across it either, see the doc of `splitCloser`). -/
def subInline : List Char → List Char
  | [] => []
  | a :: rest =>
    if a = '$' ∧ rest.head? = some '$' then
      match splitCloser rest.tail with
      | some (c, _) => '$' :: (c ++ '$' :: subInline (rest.tail.drop (c.length + 2)))
      | none => '$' :: '$' :: subInline rest.tail
    else a :: subInline rest
termination_by l => l.length
decreasing_by
  · have h1 := List.length_drop (c.length + 2) rest.tail
    have h2 : rest.tail.length ≤ rest.length := by
      cases rest <;> simp
    simp only [List.length_cons]
    omega
  · have h2 : rest.tail.length ≤ rest.length := by
      cases rest <;> simp
    simp only [List.length_cons]
    omega
  · simp

theorem splitCloser_drop {l c post : List Char}
    (h : splitCloser l = some (c, post)) : l.drop (c.length + 2) = post := by
  obtain ⟨hl, -⟩ := splitCloser_eq_some h
  subst hl
  rw [show c ++ '$' :: '$' :: post = (c ++ ['$', '$']) ++ post by simp,
    show c.length + 2 = (c ++ ['$', '$']).length by simp]
  exact List.drop_left _ _

theorem containsDD_cons (a : Char) (l : List Char) :
    containsDD (a :: l) =
      (decide (a = '$' ∧ l.head? = some '$') || containsDD l) := by
  simp only [containsDD, splitAtDD]
  split
  · rename_i hc
    simp [hc]
  · rename_i hc
    simp [hc]

theorem containsDD_tail {a : Char} {l : List Char}
    (h : containsDD l = true) : containsDD (a :: l) = true := by
  rw [containsDD_cons, h, Bool.or_true]

theorem not_containsDD_tail {a : Char} {l : List Char}
    (h : containsDD (a :: l) = false) : containsDD l = false := by
  rw [containsDD_cons] at h
  exact (Bool.or_eq_false_iff.mp h).2

theorem containsDD_append_right (p r : List Char)
    (h : containsDD r = true) : containsDD (p ++ r) = true := by
  induction p with
  | nil => simpa
  | cons a p' ih =>
    rw [List.cons_append]
    exact containsDD_tail ih

theorem containsDD_append_left (p r : List Char)
    (h : containsDD p = true) : containsDD (p ++ r) = true := by
  induction p with
  | nil => simp [containsDD, splitAtDD] at h
  | cons a p' ih =>
    rw [containsDD_cons] at h
    rw [List.cons_append, containsDD_cons]
    rcases Bool.or_eq_true_iff.mp h with hc | hp
    · have hc' := of_decide_eq_true hc
      obtain ⟨ha, hh⟩ := hc'
      cases p' with
      | nil => simp at hh
      | cons b p'' =>
        simp only [List.head?_cons, Option.some.injEq] at hh
        subst ha hh
        simp
    · rw [ih hp, Bool.or_true]

theorem not_containsDD_dropped {p r : List Char}
    (h : containsDD (p ++ r) = false) : containsDD p = false := by
  by_contra hb
  rw [containsDD_append_left p r (by revert hb; cases containsDD p <;> simp)] at h
  exact Bool.true_eq_false.mp h

theorem subInline_nil : subInline [] = [] := by simp [subInline]

theorem subInline_cons_not {a : Char} {l : List Char}
    (h : ¬(a = '$' ∧ l.head? = some '$')) :
    subInline (a :: l) = a :: subInline l := by
  simp only [subInline]
  rw [if_neg h]

theorem subInline_dd_some {l c q : List Char}
    (hh : l.head? = some '$')
    (hs : splitCloser l.tail = some (c, q)) :
    subInline ('$' :: l) = '$' :: (c ++ '$' :: subInline q) := by
  simp only [subInline]
  rw [if_pos ⟨trivial, hh⟩, hs]
  simp only [splitCloser_drop hs]

theorem subInline_dd_none {l : List Char}
    (hh : l.head? = some '$')
    (hs : splitCloser l.tail = none) :
    subInline ('$' :: l) = '$' :: '$' :: subInline l.tail := by
  simp only [subInline]
  rw [if_pos ⟨trivial, hh⟩, hs]

theorem subInline_of_not_containsDD : ∀ {l : List Char},
    containsDD l = false → subInline l = l := by
  intro l
  induction l with
  | nil => intro _; exact subInline_nil
  | cons a rest ih =>
    intro h
    have hcond : ¬(a = '$' ∧ rest.head? = some '$') := by
      intro hc
      rw [containsDD_cons, decide_eq_true hc, Bool.true_or] at h
      exact Bool.true_eq_false.mp h
    rw [subInline_cons_not hcond, ih (not_containsDD_tail h)]

theorem isSpace_not_dollar {c : Char} (h : isSpace c = true) : c ≠ '$' := by
  intro hc
  subst hc
  simp [isSpace] at h

theorem blank_not_containsDD : ∀ {w : List Char},
    isBlank w = true → containsDD w = false := by
  intro w
  induction w with
  | nil => intro _; rfl
  | cons s w' ih =>
    intro h
    simp only [isBlank, List.all_cons, Bool.and_eq_true] at h
    rw [containsDD_cons, ih h.2, Bool.or_false]
    simp only [decide_eq_false_iff_not]
    intro hc
    exact isSpace_not_dollar h.1 hc.1

theorem blank_dollar_not_containsDD : ∀ {w : List Char},
    isBlank w = true → containsDD (w ++ ['$']) = false := by
  intro w
  induction w with
  | nil => intro _; rfl
  | cons s w' ih =>
    intro h
    simp only [isBlank, List.all_cons, Bool.and_eq_true] at h
    rw [List.cons_append, containsDD_cons, ih h.2, Bool.or_false]
    simp only [decide_eq_false_iff_not]
    intro hc
    exact isSpace_not_dollar h.1 hc.1

/-- Scanning passes unchanged over a prefix that contains no `$$` and
does not end in a `$` that could pair with the first character of the
remainder (both conditions packaged as: `pre ++ ['$']` contains no
`$$`). -/
theorem subInline_append_clean : ∀ {pre l : List Char},
    containsDD (pre ++ ['$']) = false →
    subInline (pre ++ l) = pre ++ subInline l := by
  intro pre
  induction pre with
  | nil => intro l _; rfl
  | cons a pre' ih =>
    intro l h
    have hcond : ¬(a = '$' ∧ (pre' ++ l).head? = some '$') := by
      rintro ⟨ha, hh⟩
      subst ha
      cases pre' with
      | nil =>
        rw [List.cons_append, containsDD_cons] at h
        simp at h
      | cons b p'' =>
        simp only [List.cons_append, List.head?_cons, Option.some.injEq] at hh
        subst hh
        rw [List.cons_append, containsDD_cons] at h
        simp [List.cons_append] at h
    rw [List.cons_append, subInline_cons_not hcond,
      ih (not_containsDD_tail (by rwa [List.cons_append] at h))]
    rfl

theorem splitAtDD_append : ∀ {p q : List Char},
    containsDD (p ++ ['$']) = false →
    splitAtDD (p ++ '$' :: '$' :: q) = some (p, q) := by
  intro p
  induction p with
  | nil => intro q _; simp [splitAtDD]
  | cons a p' ih =>
    intro q h
    rw [List.cons_append] at h ⊢
    have hcond : ¬(a = '$' ∧ (p' ++ '$' :: '$' :: q).head? = some '$') := by
      rintro ⟨ha, hh⟩
      subst ha
      cases p' with
      | nil =>
        rw [containsDD_cons] at h
        simp at h
      | cons b p'' =>
        simp only [List.cons_append, List.head?_cons, Option.some.injEq] at hh
        subst hh
        rw [containsDD_cons] at h
        simp [List.cons_append] at h
    simp only [splitAtDD]
    rw [if_neg hcond, ih (not_containsDD_tail h)]
    rfl

theorem splitCloser_at {c post : List Char} (hc : c ≠ [])
    (h : containsDD (c ++ ['$']) = false) :
    splitCloser (c ++ '$' :: '$' :: post) = some (c, post) := by
  cases c with
  | nil => exact absurd rfl hc
  | cons e c' =>
    rw [List.cons_append] at h ⊢
    simp only [splitCloser]
    rw [splitAtDD_append (not_containsDD_tail h)]

/-- The heart of the inline rewriting: on a line of shape
`pre $$ c $$ post` where `pre` holds no pair and cannot contribute a
`$` to the opening marker, and `c` is non-empty, holds no pair and
cannot contribute a `$` to the closing marker, the substitution
rewrites the pair to `$ c $`, keeps `pre` unchanged and continues on
`post` — exactly the leftmost-lazy behaviour of
`re.sub(r"\$\$(.+?)\$\$", …)`. -/
theorem subInline_rewrite {pre c post : List Char}
    (hpre : containsDD (pre ++ ['$']) = false)
    (hc0 : c ≠ []) (hcdd : containsDD (c ++ ['$']) = false) :
    subInline (pre ++ '$' :: '$' :: (c ++ '$' :: '$' :: post)) =
      pre ++ '$' :: (c ++ '$' :: subInline post) := by
  rw [subInline_append_clean hpre]
  rw [subInline_dd_some (l := '$' :: (c ++ '$' :: '$' :: post)) rfl
    (by rw [List.tail_cons]; exact splitCloser_at hc0 hcdd)]

theorem isSpace_dollar : isSpace '$' = false := by decide

theorem isBlank_cons (a : Char) (l : List Char) :
    isBlank (a :: l) = (isSpace a && isBlank l) := by
  simp [isBlank]

theorem isBlank_subInline : ∀ {l : List Char},
    isBlank (subInline l) = isBlank l := by
  intro l
  induction l with
  | nil => rw [subInline_nil]
  | cons a rest ih =>
    by_cases hcond : a = '$' ∧ rest.head? = some '$'
    · obtain ⟨ha, hh⟩ := hcond
      subst ha
      cases hsc : splitCloser rest.tail with
      | none =>
        rw [subInline_dd_none hh hsc]
        simp [isBlank_cons, isSpace_dollar]
      | some cp =>
        rw [subInline_dd_some (c := cp.1) (q := cp.2) hh (by rw [hsc])]
        simp [isBlank_cons, isSpace_dollar]
    · rw [subInline_cons_not hcond, isBlank_cons, isBlank_cons, ih]

theorem isBlank_append (p q : List Char) :
    isBlank (p ++ q) = (isBlank p && isBlank q) := by
  simp [isBlank]

theorem isBlank_reverse (l : List Char) :
    isBlank l.reverse = isBlank l := by
  simp [isBlank]

/-- Every line splits as leading whitespace, its stripped core, and
trailing whitespace (`str.strip` semantics). -/
theorem trimB_decomp (l : Line) :
    ∃ w1 w2, l = w1 ++ trimB l ++ w2 ∧ isBlank w1 = true ∧ isBlank w2 = true := by
  refine ⟨l.takeWhile isSpace,
    ((lstripL l).reverse.takeWhile isSpace).reverse, ?_, ?_, ?_⟩
  · conv_lhs => rw [← List.takeWhile_append_dropWhile (p := isSpace) (l := l)]
    have hmid : lstripL l = trimB l ++ ((lstripL l).reverse.takeWhile isSpace).reverse := by
      unfold trimB rstripL
      conv_lhs => rw [← List.reverse_reverse (lstripL l)]
      conv_lhs =>
        rw [← List.takeWhile_append_dropWhile (p := isSpace) (l := (lstripL l).reverse)]
      rw [List.reverse_append]
    rw [List.append_assoc, ← hmid]
    rfl
  · simp [isBlank, List.all_eq_true]
  · rw [isBlank_reverse]
    simp [isBlank, List.all_eq_true]

theorem trimB_no_edge_space {a b : Char} {m : List Char}
    (ha : isSpace a = false) (hb : isSpace b = false) :
    trimB (a :: (m ++ [b])) = a :: (m ++ [b]) := by
  unfold trimB lstripL rstripL
  rw [List.dropWhile_cons_of_neg (by simp [ha])]
  rw [show (a :: (m ++ [b])).reverse = b :: (m.reverse ++ [a]) by simp]
  rw [List.dropWhile_cons_of_neg (by simp [hb])]
  simp

/-- `line.lstrip().startswith("|")` (converter.py lines 114 and 117):
the line is a table row. -/
def isTableRow (l : Line) : Bool := ['|'].isPrefixOf (lstripL l)

/-- `line.lstrip().startswith("![](")` (converter.py line 123): the
line is an image reference. -/
def isImageRef (l : Line) : Bool := ['!', '[', ']', '('].isPrefixOf (lstripL l)

/-- The inner scan of the block-detection loop (converter.py lines
52–53): advance until the next `$$`-marker line.  `splitAtMarker ls =
some (p, r)` means `ls = p ++ r` where `p` ends with the first marker
line of `ls` (and holds no earlier marker); `none` means `ls` has no
marker line. -/
def splitAtMarker : List Line → Option (List Line × List Line)
  | [] => none
  | l :: rest =>
    if isMarker l then some ([l], rest)
    else (splitAtMarker rest).map (fun p => (l :: p.1, p.2))

theorem splitAtMarker_eq_some : ∀ {ls p r : List Line},
    splitAtMarker ls = some (p, r) → ls = p ++ r ∧ p ≠ [] := by
  intro ls
  induction ls with
  | nil => intro p r h; simp [splitAtMarker] at h
  | cons l rest ih =>
    intro p r h
    simp only [splitAtMarker] at h
    split at h
    · simp only [Option.some.injEq, Prod.mk.injEq] at h
      obtain ⟨hp, hr⟩ := h
      subst hp hr
      exact ⟨rfl, by simp⟩
    · cases hsm : splitAtMarker rest with
      | none => rw [hsm] at h; simp at h
      | some pr =>
        rw [hsm] at h
        simp only [Option.map_some', Option.some.injEq, Prod.mk.injEq] at h
        obtain ⟨hp, hr⟩ := h
        obtain ⟨he, -⟩ := ih (p := pr.1) (r := pr.2) (by rw [hsm])
        subst hp hr
        simp [he]

theorem splitAtMarker_length {ls p r : List Line}
    (h : splitAtMarker ls = some (p, r)) : r.length < ls.length := by
  obtain ⟨he, hp⟩ := splitAtMarker_eq_some h
  subst he
  cases p with
  | nil => exact absurd rfl hp
  | cons x xs => simp; omega

/-- The block-detection loop (converter.py lines 46–59) producing
`display_block_lines`, expressed positionally: each line is paired
with the flag "belongs to a detected multi-line display block".  A
marker line opens a block; if a closing marker line follows, the whole
range `[opener, …, closer]` is flagged and scanning resumes after the
closer; if no closing marker follows, nothing more is flagged (the
Python scan index runs past the end and the loop exits, leaving the
opener and everything after it unflagged). -/
def tagBlocks : List Line → List (Line × Bool)
  | [] => []
  | l :: rest =>
    if isMarker l then
      match splitAtMarker rest with
      | some (p, _) =>
        (l, true) :: (p.map (fun x => (x, true)) ++ tagBlocks (rest.drop p.length))
      | none => (l, false) :: rest.map (fun x => (x, false))
    else (l, false) :: tagBlocks rest
termination_by ls => ls.length
decreasing_by
  · have := List.length_drop p.length rest
    simp only [List.length_cons]
    omega
  · simp

theorem splitAtMarker_drop {ls p r : List Line}
    (h : splitAtMarker ls = some (p, r)) : ls.drop p.length = r := by
  obtain ⟨hl, -⟩ := splitAtMarker_eq_some h
  subst hl
  exact List.drop_left _ _

/-- The blank line appended by the spacing code (`processed.append("")`). -/
def blankL : Line := []

/-- `len(out) > 0 and out[-1].strip() != ""` for an output list whose
last emitted line is tracked in an `Option`. -/
def prevNB : Option Line → Bool
  | none => false
  | some l => !isBlank l

/-- The main rewriting loop of converter.py lines 61–107, over lines
paired with their `display_block_lines` flag; `last` tracks the last
line already emitted (`processed[-1]`).

* a flagged line starts a verbatim copy of the whole contiguous
  flagged run, preceded by a blank line when the previous emitted line
  is non-blank, and followed by a blank line when the next input line
  exists and is non-blank (lines 67–78);
* an unflagged line matching the whole-line display pattern is
  emitted stripped, preceded by a blank line when the previous emitted
  line is non-blank and followed by a blank line when the next input
  line exists and is non-blank (lines 81–90);
* any other line is emitted with `$$…$$` pairs rewritten by
  `subInline` when it contains `$$`, unchanged otherwise
  (lines 100–107). -/
def processTagged : Option Line → List (Line × Bool) → List Line
  | _, [] => []
  | last, (l, tag) :: rest =>
    if tag then
      let run := l :: (rest.takeWhile (fun p => p.2)).map (fun p => p.1)
      let rest' := rest.dropWhile (fun p => p.2)
      let pre := if prevNB last then [blankL] else []
      match rest'.head? with
      | none => pre ++ run
      | some (n, _) =>
        if isBlank n then
          pre ++ run ++ processTagged (some (run.getLastD blankL)) rest'
        else pre ++ run ++ blankL :: processTagged (some blankL) rest'
    else if isLineDisplay l then
      let pre := if prevNB last then [blankL] else []
      match rest.head? with
      | none => pre ++ [trimB l]
      | some (n, _) =>
        if isBlank n then pre ++ trimB l :: processTagged (some (trimB l)) rest
        else pre ++ trimB l :: blankL :: processTagged (some blankL) rest
    else
      let w := if containsDD l then subInline l else l
      w :: processTagged (some w) rest
termination_by _ ls => ls.length
decreasing_by
  · have := (List.dropWhile_suffix (l := rest) (fun p => p.2)).length_le
    simp only [List.length_cons]
    omega
  · have := (List.dropWhile_suffix (l := rest) (fun p => p.2)).length_le
    simp only [List.length_cons]
    omega
  · simp
  · simp
  · simp

/-- The table/image spacing loop of converter.py lines 109–132 over
the output of the first loop; `last` tracks `final_lines[-1]`.

* a table-row line starts a verbatim copy of the contiguous run of
  table rows, preceded by a blank line when the previous emitted line
  is non-blank and followed by one when the next line exists and is
  non-blank (lines 114–122);
* an image-reference line is copied with the same blank-line
  treatment (lines 123–130);
* any other line is copied unchanged (line 131). -/
def spaceTables : Option Line → List Line → List Line
  | _, [] => []
  | last, l :: rest =>
    if isTableRow l then
      let run := l :: rest.takeWhile isTableRow
      let rest' := rest.dropWhile isTableRow
      let pre := if prevNB last then [blankL] else []
      match rest'.head? with
      | none => pre ++ run
      | some n =>
        if isBlank n then
          pre ++ run ++ spaceTables (some (run.getLastD blankL)) rest'
        else pre ++ run ++ blankL :: spaceTables (some blankL) rest'
    else if isImageRef l then
      let pre := if prevNB last then [blankL] else []
      match rest.head? with
      | none => pre ++ [l]
      | some n =>
        if isBlank n then pre ++ l :: spaceTables (some l) rest
        else pre ++ l :: blankL :: spaceTables (some blankL) rest
    else l :: spaceTables (some l) rest
termination_by _ ls => ls.length
decreasing_by
  · have := (List.dropWhile_suffix (l := rest) isTableRow).length_le
    simp only [List.length_cons]
    omega
  · have := (List.dropWhile_suffix (l := rest) isTableRow).length_le
    simp only [List.length_cons]
    omega
  · simp
  · simp
  · simp

/-- The first rewriting pass of `convert_md_to_docx` (converter.py
lines 46–107): block detection followed by the main loop, producing
`processed` from `lines`. -/
def processLines (doc : List Line) : List Line :=
  processTagged none (tagBlocks doc)

/-- The whole text normalization of `convert_md_to_docx` (converter.py
lines 46–132): the rewriting pass followed by the table/image spacing
pass, producing `final_lines` from `lines`. -/
def normalizeLines (doc : List Line) : List Line :=
  spaceTables none (processLines doc)

/-!  ## Retry loops of `src/util.py`

`ocr` (util.py lines 55–72) and `gen_draft` (lines 138–155) wrap their
network call in the same loop:

```
max_retries = 5
for attempt in range(max_retries):
    try: …; return …
    except Exception as e:
        if attempt < max_retries - 1:
            time.sleep(2**attempt)
            continue
        else:
            raise e
```

The call is modelled by an oracle giving each attempt's outcome; the
loop returns the result together with the list of sleep durations, and
`none` models falling off the end of the `for` loop (unreachable when
the bound is positive). -/

/-- The retry loop with `n` remaining iterations, current attempt
index `a`: on success return, on failure sleep `2**attempt` and retry
unless this was the last attempt, in which case re-raise. -/
def retryRun {α ε : Type} (call : ℕ → Except ε α) :
    ℕ → ℕ → Option (Except ε α × List ℕ)
  | 0, _ => none
  | n + 1, a =>
    match call a with
    | .ok v => some (.ok v, [])
    | .error e =>
      if n = 0 then some (.error e, [])
      else (retryRun call n (a + 1)).map (fun r => (r.1, 2 ^ a :: r.2))

/-- The retry wrapper shared by `ocr` and `gen_draft`:
`max_retries = 5`, first attempt index `0`. -/
def llmRetry {α ε : Type} (call : ℕ → Except ε α) :
    Option (Except ε α × List ℕ) :=
  retryRun call 5 0

/-!  ## Style post-processing of `src/converter.py` (lines 195–257)

The docx document is modelled at the granularity the two loops use:
the body is a list of elements, each a paragraph carrying its
justification or a table.  `for p in doc.paragraphs: p.alignment =
JUSTIFY` maps over all paragraphs; the table loop sets the alignment
of the paragraph returned by `table._element.getprevious()` — the body
element immediately before the table, when it is a paragraph — to
CENTER. -/

inductive ParaAlign : Type
  | unset
  | justifyAlign
  | centerAlign
deriving DecidableEq

inductive BodyEl : Type
  | para (a : ParaAlign)
  | table
deriving DecidableEq

abbrev DocModel := List BodyEl

/-- converter.py lines 195–197: every paragraph's alignment is set to
`WD_ALIGN_PARAGRAPH.JUSTIFY`; tables are untouched by this loop. -/
def justifyAll (d : DocModel) : DocModel :=
  d.map (fun e =>
    match e with
    | .para _ => .para .justifyAlign
    | .table => .table)

/-- converter.py lines 243–255: for each table, if the body element
immediately before it is a paragraph, that paragraph's alignment is
set to `WD_ALIGN_PARAGRAPH.CENTER`. -/
def centerCaptions : DocModel → DocModel
  | .para _ :: .table :: rest => .para .centerAlign :: centerCaptions (.table :: rest)
  | e :: rest => e :: centerCaptions rest
  | [] => []
termination_by d => d.length
decreasing_by
  · simp
  · simp

/-- The paragraph-alignment effect of the style post-processor
(converter.py lines 195–257): justify every paragraph, then center
each table's immediately preceding paragraph.  (The run-level font
and colour mutations and the border mutations touch no paragraph
structure.) -/
def stylePass (d : DocModel) : DocModel := centerCaptions (justifyAll d)

/-- Number of paragraphs of a document body. -/
def paraCount (d : DocModel) : ℕ :=
  (d.filter (fun e => match e with | .para _ => true | .table => false)).length

theorem centerCaptions_nil : centerCaptions [] = [] := by
  simp [centerCaptions]

theorem centerCaptions_para_table (a : ParaAlign) (rest : DocModel) :
    centerCaptions (.para a :: .table :: rest) =
      .para .centerAlign :: centerCaptions (.table :: rest) := by
  simp [centerCaptions]

theorem centerCaptions_table_cons (rest : DocModel) :
    centerCaptions (.table :: rest) = .table :: centerCaptions rest := by
  cases rest with
  | nil => simp [centerCaptions]
  | cons f r => simp [centerCaptions]

theorem centerCaptions_para_para (a : ParaAlign) (f : BodyEl) (rest : DocModel)
    (hf : f ≠ .table) :
    centerCaptions (.para a :: f :: rest) = .para a :: centerCaptions (f :: rest) := by
  cases f with
  | table => exact absurd rfl hf
  | para b => simp [centerCaptions]

theorem centerCaptions_single (e : BodyEl) : centerCaptions [e] = [e] := by
  cases e <;> simp [centerCaptions]

theorem centerCaptions_no_table : ∀ {d : DocModel}, BodyEl.table ∉ d →
    centerCaptions d = d := by
  intro d
  induction d with
  | nil => intro _; exact centerCaptions_nil
  | cons e rest ih =>
    intro h
    have he : e ≠ .table := fun hc => h (hc ▸ List.mem_cons_self e rest)
    have hrest : BodyEl.table ∉ rest := fun hc => h (List.mem_cons_of_mem e hc)
    cases e with
    | table => exact absurd rfl he
    | para a =>
      cases rest with
      | nil => exact centerCaptions_single _
      | cons f r =>
        have hf : f ≠ .table := fun hc => hrest (hc ▸ List.mem_cons_self f r)
        rw [centerCaptions_para_para a f r hf, ih hrest]

theorem centerCaptions_prefix_no_table : ∀ {ys : DocModel} {b : ParaAlign}
    {w : DocModel}, BodyEl.table ∉ ys →
    centerCaptions (ys ++ .para b :: .table :: w) =
      ys ++ .para .centerAlign :: centerCaptions (.table :: w) := by
  intro ys
  induction ys with
  | nil => intro b ws _; exact centerCaptions_para_table b ws
  | cons y ys' ih =>
    intro b ws h
    have hy : y ≠ .table := fun hc => h (hc ▸ List.mem_cons_self y ys')
    have hys' : BodyEl.table ∉ ys' := fun hc => h (List.mem_cons_of_mem y hc)
    cases y with
    | table => exact absurd rfl hy
    | para a =>
      rw [List.cons_append]
      cases ys' with
      | nil =>
        rw [List.nil_append, centerCaptions_para_para a (.para b) _ (by simp),
          centerCaptions_para_table]
        rfl
      | cons z zs =>
        have hz : z ≠ .table := fun hc => hys' (hc ▸ List.mem_cons_self z zs)
        rw [List.cons_append, centerCaptions_para_para a z _ hz,
          ← List.cons_append, ih hys' (b := b) (w := ws)]
        rfl

theorem justifyAll_no_table {zs : DocModel} (h : BodyEl.table ∉ zs) :
    BodyEl.table ∉ justifyAll zs := by
  intro hc
  obtain ⟨e, he, hr⟩ := List.mem_map.mp hc
  cases e with
  | para a => simp [justifyAll] at hr
  | table => exact h he

theorem paraCount_append (p q : DocModel) :
    paraCount (p ++ q) = paraCount p + paraCount q := by
  simp [paraCount, List.filter_append]

theorem paraCount_cons_para (x : ParaAlign) (rest : DocModel) :
    paraCount (.para x :: rest) = paraCount rest + 1 := by
  simp [paraCount, List.filter_cons]

theorem paraCount_cons_table (rest : DocModel) :
    paraCount (.table :: rest) = paraCount rest := by
  simp [paraCount, List.filter_cons]

theorem paraCount_justifyAll (d : DocModel) :
    paraCount (justifyAll d) = paraCount d := by
  induction d with
  | nil => rfl
  | cons e rest ih =>
    cases e with
    | para a =>
      show paraCount (.para .justifyAlign :: justifyAll rest) = _
      rw [paraCount_cons_para, paraCount_cons_para, ih]
    | table =>
      show paraCount (.table :: justifyAll rest) = _
      rw [paraCount_cons_table, paraCount_cons_table, ih]

/-- C9: on a document body with exactly one table whose immediately
preceding body element is a paragraph (as produced from a markdown
source with one table and one display-math block), the style
post-processor maps every paragraph to the justified alignment except
the paragraph immediately before the table, which ends centered; the
paragraph count is unchanged. -/
theorem c9_style_one_table (xs zs : DocModel) (a : ParaAlign)
    (hxs : BodyEl.table ∉ xs) (hzs : BodyEl.table ∉ zs) :
    stylePass (xs ++ .para a :: .table :: zs) =
      justifyAll xs ++ .para .centerAlign :: .table :: justifyAll zs ∧
    paraCount (stylePass (xs ++ .para a :: .table :: zs)) =
      paraCount (xs ++ .para a :: .table :: zs) := by
  have hmain : stylePass (xs ++ .para a :: .table :: zs) =
      justifyAll xs ++ .para .centerAlign :: .table :: justifyAll zs := by
    unfold stylePass
    have hj : justifyAll (xs ++ .para a :: .table :: zs) =
        justifyAll xs ++ .para .justifyAlign :: .table :: justifyAll zs := by
      simp [justifyAll]
    rw [hj, centerCaptions_prefix_no_table (justifyAll_no_table hxs),
      centerCaptions_table_cons, centerCaptions_no_table (justifyAll_no_table hzs)]
  refine ⟨hmain, ?_⟩
  rw [hmain, paraCount_append, paraCount_append, paraCount_justifyAll,
    paraCount_cons_para, paraCount_cons_table, paraCount_justifyAll,
    paraCount_cons_para, paraCount_cons_table]

/-- Witness for `c9_style_one_table`: a five-element body — two
paragraphs (text and display math), a caption paragraph, the table,
and a trailing paragraph. -/
theorem c9_style_one_table_witness :
    stylePass [.para .unset, .para .unset, .para .unset, .table, .para .unset] =
      [.para .justifyAlign, .para .justifyAlign, .para .centerAlign, .table,
        .para .justifyAlign] ∧
    paraCount (stylePass [.para .unset, .para .unset, .para .unset, .table,
      .para .unset]) =
      paraCount [BodyEl.para .unset, .para .unset, .para .unset, .table,
        .para .unset] := by
  have h := c9_style_one_table [.para .unset, .para .unset] [.para .unset] .unset
    (by simp) (by simp)
  simpa [justifyAll] using h

/-- C8: each LLM call site (`ocr`, util.py lines 55–72, and
`gen_draft`, util.py lines 138–155) attempts the call at most 5
times; after every failed attempt except the last it sleeps `2 **
attempt` seconds (so the delays double: 1, 2, 4, 8), and if the fifth
attempt also fails, that final error is re-raised; if attempt `a`
(zero-based, `a < 5`) is the first to succeed, its value is returned
after sleeps `2^0 … 2^(a-1)`. -/
theorem c8_retry_policy {α ε : Type} (call : ℕ → Except ε α) :
    (∀ e : ℕ → ε, (∀ i, i < 5 → call i = .error (e i)) →
      llmRetry call = some (.error (e 4), [1, 2, 4, 8])) ∧
    (∀ (a : ℕ) (v : α), a < 5 → call a = .ok v →
      (∀ i, i < a → ∃ ei, call i = .error ei) →
      llmRetry call = some (.ok v, (List.range a).map (fun i => 2 ^ i))) := by
  constructor
  · intro e he
    have h0 := he 0 (by omega)
    have h1 := he 1 (by omega)
    have h2 := he 2 (by omega)
    have h3 := he 3 (by omega)
    have h4 := he 4 (by omega)
    simp [llmRetry, retryRun, h0, h1, h2, h3, h4]
  · intro a v ha hok hfail
    interval_cases a
    · simp [llmRetry, retryRun, hok]
    · obtain ⟨e0, h0⟩ := hfail 0 (by omega)
      simp [llmRetry, retryRun, h0, hok, List.range_succ]
    · obtain ⟨e0, h0⟩ := hfail 0 (by omega)
      obtain ⟨e1, h1⟩ := hfail 1 (by omega)
      simp [llmRetry, retryRun, h0, h1, hok, List.range_succ]
    · obtain ⟨e0, h0⟩ := hfail 0 (by omega)
      obtain ⟨e1, h1⟩ := hfail 1 (by omega)
      obtain ⟨e2, h2⟩ := hfail 2 (by omega)
      simp [llmRetry, retryRun, h0, h1, h2, hok, List.range_succ]
    · obtain ⟨e0, h0⟩ := hfail 0 (by omega)
      obtain ⟨e1, h1⟩ := hfail 1 (by omega)
      obtain ⟨e2, h2⟩ := hfail 2 (by omega)
      obtain ⟨e3, h3⟩ := hfail 3 (by omega)
      simp [llmRetry, retryRun, h0, h1, h2, h3, hok, List.range_succ]

/-- Witness for `c8_retry_policy`: with every attempt failing (error =
attempt index) the loop re-raises the fifth error after sleeping
1, 2, 4, 8; with a call succeeding on the third attempt the loop
returns that value after sleeping 1, 2. -/
theorem c8_retry_policy_witness :
    llmRetry (fun i => (.error i : Except ℕ Unit)) = some (.error 4, [1, 2, 4, 8]) ∧
    llmRetry (fun i => if i < 2 then (.error i : Except ℕ Unit) else .ok ()) =
      some (.ok (), [1, 2]) := by
  constructor
  · exact (c8_retry_policy _).1 (fun i => i) (fun i _ => rfl)
  · have h := (c8_retry_policy
      (fun i => if i < 2 then (.error i : Except ℕ Unit) else .ok ())).2 2 ()
      (by omega) (by simp) (fun i hi => ⟨i, by simp [hi]⟩)
    simpa [List.range_succ] using h

theorem processTagged_nil (last : Option Line) : processTagged last [] = [] := by
  simp [processTagged]

theorem processTagged_true_none {r : List (Line × Bool)} (last : Option Line)
    (l : Line) (hh : (r.dropWhile (fun p => p.2)).head? = none) :
    processTagged last ((l, true) :: r) =
      (if prevNB last then [blankL] else []) ++
        (l :: (r.takeWhile (fun p => p.2)).map (fun p => p.1)) := by
  simp only [processTagged, hh, if_true]

theorem processTagged_true_blank {r : List (Line × Bool)} (last : Option Line)
    (l n : Line) (b : Bool)
    (hh : (r.dropWhile (fun p => p.2)).head? = some (n, b))
    (hb : isBlank n = true) :
    processTagged last ((l, true) :: r) =
      (if prevNB last then [blankL] else []) ++
        (l :: (r.takeWhile (fun p => p.2)).map (fun p => p.1)) ++
        processTagged
          (some ((l :: (r.takeWhile (fun p => p.2)).map (fun p => p.1)).getLastD blankL))
          (r.dropWhile (fun p => p.2)) := by
  simp only [processTagged, hh, hb, if_true, List.append_assoc]

theorem processTagged_true_nonblank {r : List (Line × Bool)} (last : Option Line)
    (l n : Line) (b : Bool)
    (hh : (r.dropWhile (fun p => p.2)).head? = some (n, b))
    (hb : isBlank n = false) :
    processTagged last ((l, true) :: r) =
      (if prevNB last then [blankL] else []) ++
        (l :: (r.takeWhile (fun p => p.2)).map (fun p => p.1)) ++
        blankL :: processTagged (some blankL) (r.dropWhile (fun p => p.2)) := by
  simp only [processTagged, hh, hb, Bool.false_eq_true, if_false, if_true,
    List.append_assoc]

theorem processTagged_disp_none {rest : List (Line × Bool)} (last : Option Line)
    (l : Line) (hd : isLineDisplay l = true) (hh : rest.head? = none) :
    processTagged last ((l, false) :: rest) =
      (if prevNB last then [blankL] else []) ++ [trimB l] := by
  simp only [processTagged, hd, hh, Bool.false_eq_true, if_false, if_true]

theorem processTagged_disp_blank {rest : List (Line × Bool)} (last : Option Line)
    (l n : Line) (b : Bool) (hd : isLineDisplay l = true)
    (hh : rest.head? = some (n, b)) (hb : isBlank n = true) :
    processTagged last ((l, false) :: rest) =
      (if prevNB last then [blankL] else []) ++
        trimB l :: processTagged (some (trimB l)) rest := by
  simp only [processTagged, hd, hh, hb, Bool.false_eq_true, if_false, if_true]

theorem processTagged_disp_nonblank {rest : List (Line × Bool)} (last : Option Line)
    (l n : Line) (b : Bool) (hd : isLineDisplay l = true)
    (hh : rest.head? = some (n, b)) (hb : isBlank n = false) :
    processTagged last ((l, false) :: rest) =
      (if prevNB last then [blankL] else []) ++
        trimB l :: blankL :: processTagged (some blankL) rest := by
  simp only [processTagged, hd, hh, hb, Bool.false_eq_true, if_false, if_true]

theorem processTagged_plain {rest : List (Line × Bool)} (last : Option Line)
    (l : Line) (hd : isLineDisplay l = false) :
    processTagged last ((l, false) :: rest) =
      (if containsDD l then subInline l else l) ::
        processTagged (some (if containsDD l then subInline l else l)) rest := by
  simp only [processTagged, hd, Bool.false_eq_true, if_false]

theorem spaceTables_nil (last : Option Line) : spaceTables last [] = [] := by
  simp [spaceTables]

theorem spaceTables_table_none {rest : List Line} (last : Option Line) (l : Line)
    (ht : isTableRow l = true) (hh : (rest.dropWhile isTableRow).head? = none) :
    spaceTables last (l :: rest) =
      (if prevNB last then [blankL] else []) ++ (l :: rest.takeWhile isTableRow) := by
  simp only [spaceTables, ht, hh, if_true]

theorem spaceTables_table_blank {rest : List Line} (last : Option Line) (l n : Line)
    (ht : isTableRow l = true) (hh : (rest.dropWhile isTableRow).head? = some n)
    (hb : isBlank n = true) :
    spaceTables last (l :: rest) =
      (if prevNB last then [blankL] else []) ++ (l :: rest.takeWhile isTableRow) ++
        spaceTables (some ((l :: rest.takeWhile isTableRow).getLastD blankL))
          (rest.dropWhile isTableRow) := by
  simp only [spaceTables, ht, hh, hb, if_true, List.append_assoc]

theorem spaceTables_table_nonblank {rest : List Line} (last : Option Line) (l n : Line)
    (ht : isTableRow l = true) (hh : (rest.dropWhile isTableRow).head? = some n)
    (hb : isBlank n = false) :
    spaceTables last (l :: rest) =
      (if prevNB last then [blankL] else []) ++ (l :: rest.takeWhile isTableRow) ++
        blankL :: spaceTables (some blankL) (rest.dropWhile isTableRow) := by
  simp only [spaceTables, ht, hh, hb, Bool.false_eq_true, if_false, if_true,
    List.append_assoc]

theorem spaceTables_image_none {rest : List Line} (last : Option Line) (l : Line)
    (ht : isTableRow l = false) (hi : isImageRef l = true) (hh : rest.head? = none) :
    spaceTables last (l :: rest) =
      (if prevNB last then [blankL] else []) ++ [l] := by
  simp only [spaceTables, ht, hi, hh, Bool.false_eq_true, if_false, if_true]

theorem spaceTables_image_blank {rest : List Line} (last : Option Line) (l n : Line)
    (ht : isTableRow l = false) (hi : isImageRef l = true)
    (hh : rest.head? = some n) (hb : isBlank n = true) :
    spaceTables last (l :: rest) =
      (if prevNB last then [blankL] else []) ++ l :: spaceTables (some l) rest := by
  simp only [spaceTables, ht, hi, hh, hb, Bool.false_eq_true, if_false, if_true]

theorem spaceTables_image_nonblank {rest : List Line} (last : Option Line) (l n : Line)
    (ht : isTableRow l = false) (hi : isImageRef l = true)
    (hh : rest.head? = some n) (hb : isBlank n = false) :
    spaceTables last (l :: rest) =
      (if prevNB last then [blankL] else []) ++
        l :: blankL :: spaceTables (some blankL) rest := by
  simp only [spaceTables, ht, hi, hh, hb, Bool.false_eq_true, if_false, if_true]

theorem spaceTables_plain {r : List Line} (last : Option Line) (l : Line)
    (ht : isTableRow l = false) (hi : isImageRef l = false) :
    spaceTables last (l :: r) = l :: spaceTables (some l) r := by
  simp only [spaceTables, ht, hi, Bool.false_eq_true, if_false]

theorem tagBlocks_nil : tagBlocks [] = [] := by simp [tagBlocks]

theorem tagBlocks_not_marker {l : Line} {rest : List Line}
    (h : isMarker l = false) :
    tagBlocks (l :: rest) = (l, false) :: tagBlocks rest := by
  simp only [tagBlocks, h, Bool.false_eq_true, if_false]

theorem tagBlocks_marker_none {l : Line} {rest : List Line}
    (h : isMarker l = true) (hs : splitAtMarker rest = none) :
    tagBlocks (l :: rest) = (l, false) :: rest.map (fun x => (x, false)) := by
  simp only [tagBlocks, h, hs, if_true]

theorem tagBlocks_marker_some {l : Line} {rest : List Line} {p r : List Line}
    (h : isMarker l = true) (hs : splitAtMarker rest = some (p, r)) :
    tagBlocks (l :: rest) =
      (l, true) :: (p.map (fun x => (x, true)) ++ tagBlocks r) := by
  simp only [tagBlocks, h, hs, if_true]
  rw [splitAtMarker_drop hs]

theorem map_fst_of_pair (ls : List Line) (b : Bool) :
    (ls.map (fun x => (x, b))).map (fun p : Line × Bool => p.1) = ls := by
  induction ls with
  | nil => rfl
  | cons x r ih => simp only [List.map_cons, ih]

/-- The tagging never alters the lines themselves: stripping the
flags recovers the input. -/
theorem tagBlocks_map_fst : ∀ (n : ℕ) (doc : List Line), doc.length ≤ n →
    (tagBlocks doc).map (fun p => p.1) = doc := by
  intro n
  induction n with
  | zero =>
    intro doc h
    cases doc with
    | nil => rw [tagBlocks_nil]; rfl
    | cons l rest => simp at h
  | succ n ih =>
    intro doc h
    cases doc with
    | nil => rw [tagBlocks_nil]; rfl
    | cons l rest =>
      simp only [List.length_cons, Nat.add_le_add_iff_right] at h
      cases hm : isMarker l with
      | false =>
        rw [tagBlocks_not_marker hm, List.map_cons, ih rest h]
      | true =>
        cases hs : splitAtMarker rest with
        | none =>
          rw [tagBlocks_marker_none hm hs, List.map_cons, map_fst_of_pair]
        | some pr =>
          obtain ⟨p, r⟩ := pr
          obtain ⟨he, hp⟩ := splitAtMarker_eq_some hs
          have hr : r.length ≤ n := by
            subst he
            cases p with
            | nil => exact absurd rfl hp
            | cons x xs => simp at h; omega
          rw [tagBlocks_marker_some hm hs, List.map_cons, List.map_append,
            map_fst_of_pair, ih r hr]
          subst he
          rfl

theorem tagBlocks_length (doc : List Line) :
    (tagBlocks doc).length = doc.length := by
  have := tagBlocks_map_fst doc.length doc le_rfl
  calc (tagBlocks doc).length
      = ((tagBlocks doc).map (fun p => p.1)).length := by rw [List.length_map]
    _ = doc.length := by rw [this]

/-- Count of non-blank lines. -/
def nbCount (ls : List Line) : ℕ := ls.countP (fun l => !isBlank l)

theorem nbCount_nil : nbCount [] = 0 := rfl

theorem nbCount_cons (l : Line) (ls : List Line) :
    nbCount (l :: ls) = (if isBlank l then 0 else 1) + nbCount ls := by
  simp only [nbCount, List.countP_cons]
  cases hb : isBlank l <;> simp [hb] <;> omega

theorem nbCount_append (p q : List Line) :
    nbCount (p ++ q) = nbCount p + nbCount q := by
  simp [nbCount, List.countP_append]

theorem isBlank_blankL : isBlank blankL = true := rfl

theorem nbCount_pre (last : Option Line) :
    nbCount (if prevNB last then [blankL] else []) = 0 := by
  cases prevNB last <;> simp [nbCount, isBlank_blankL]

theorem isBlank_trimB (l : Line) : isBlank (trimB l) = isBlank l := by
  obtain ⟨w1, w2, he, h1, h2⟩ := trimB_decomp l
  conv_rhs => rw [he]
  rw [isBlank_append, isBlank_append, h1, h2]
  simp

theorem map_fst_takeWhile_dropWhile (rest : List (Line × Bool)) :
    rest.map (fun p => p.1) =
      (rest.takeWhile (fun p => p.2)).map (fun p => p.1) ++
        (rest.dropWhile (fun p => p.2)).map (fun p => p.1) := by
  rw [← List.map_append, List.takeWhile_append_dropWhile]

/-- The rewriting loop preserves the number of non-blank lines: every
line it inserts is blank, every blank input line stays blank, and
every non-blank input line is emitted (verbatim, stripped, or
rewritten) still non-blank. -/
theorem processTagged_nbCount : ∀ (n : ℕ) (tl : List (Line × Bool))
    (last : Option Line), tl.length ≤ n →
    nbCount (processTagged last tl) = nbCount (tl.map (fun p => p.1)) := by
  intro n
  induction n with
  | zero =>
    intro tl last h
    cases tl with
    | nil => rw [processTagged_nil]; rfl
    | cons p rest => simp at h
  | succ n ih =>
    intro tl last h
    cases tl with
    | nil => rw [processTagged_nil]; rfl
    | cons hd rest =>
      obtain ⟨l, tag⟩ := hd
      simp only [List.length_cons, Nat.add_le_add_iff_right] at h
      have hlen' : (rest.dropWhile (fun p => p.2)).length ≤ n :=
        le_trans (List.dropWhile_suffix (l := rest) (fun p => p.2)).length_le h
      cases tag with
      | true =>
        cases hh : (rest.dropWhile (fun p => p.2)).head? with
        | none =>
          have hre : rest.dropWhile (fun p => p.2) = [] :=
            List.head?_eq_none_iff.mp hh
          have htw : rest.takeWhile (fun p => p.2) = rest := by
            have hts := List.takeWhile_append_dropWhile
              (p := fun p => p.2) (l := rest)
            rw [hre, List.append_nil] at hts
            exact hts
          rw [processTagged_true_none last l hh, nbCount_append, nbCount_pre,
            htw]
          simp only [List.map_cons, nbCount_cons, nbCount_append]
          omega
        | some np =>
          obtain ⟨n', b⟩ := np
          cases hb : isBlank n' with
          | true =>
            rw [processTagged_true_blank last l n' b hh hb, nbCount_append,
              nbCount_append, nbCount_pre, ih _ _ hlen']
            conv_rhs => rw [List.map_cons, map_fst_takeWhile_dropWhile rest]
            simp only [nbCount_cons, nbCount_append]
            omega
          | false =>
            rw [processTagged_true_nonblank last l n' b hh hb, nbCount_append,
              nbCount_append, nbCount_pre]
            simp only [nbCount_cons, isBlank_blankL, if_true]
            rw [ih _ _ hlen']
            conv_rhs => rw [List.map_cons, map_fst_takeWhile_dropWhile rest]
            simp only [nbCount_cons, nbCount_append]
            omega
      | false =>
        cases hd : isLineDisplay l with
        | true =>
          cases hh : rest.head? with
          | none =>
            have hre : rest = [] := List.head?_eq_none_iff.mp hh
            subst hre
            rw [processTagged_disp_none last l hd hh, nbCount_append,
              nbCount_pre]
            simp only [List.map_cons, List.map_nil, nbCount_cons, nbCount_nil,
              isBlank_trimB]
            omega
          | some np =>
            obtain ⟨n', b⟩ := np
            have hlen : rest.length ≤ n := h
            cases hb : isBlank n' with
            | true =>
              rw [processTagged_disp_blank last l n' b hd hh hb, nbCount_append,
                nbCount_pre]
              simp only [nbCount_cons, isBlank_trimB]
              rw [ih _ _ hlen]
              simp only [List.map_cons, nbCount_cons]
              omega
            | false =>
              rw [processTagged_disp_nonblank last l n' b hd hh hb,
                nbCount_append, nbCount_pre]
              simp only [nbCount_cons, isBlank_trimB, isBlank_blankL, if_true]
              rw [ih _ _ hlen]
              simp only [List.map_cons, nbCount_cons]
              omega
        | false =>
          rw [processTagged_plain last l hd]
          simp only [nbCount_cons, List.map_cons]
          rw [ih _ _ h]
          congr 1
          cases hc : containsDD l with
          | true => simp [hc, isBlank_subInline]
          | false => simp [hc]

/-- The rewriting loop only ever adds lines. -/
theorem processTagged_length : ∀ (n : ℕ) (tl : List (Line × Bool))
    (last : Option Line), tl.length ≤ n →
    tl.length ≤ (processTagged last tl).length := by
  intro n
  induction n with
  | zero =>
    intro tl last h
    cases tl with
    | nil => simp [processTagged_nil]
    | cons p rest => simp at h
  | succ n ih =>
    intro tl last h
    cases tl with
    | nil => simp [processTagged_nil]
    | cons hd rest =>
      obtain ⟨l, tag⟩ := hd
      simp only [List.length_cons, Nat.add_le_add_iff_right] at h
      have hlen' : (rest.dropWhile (fun p => p.2)).length ≤ n :=
        le_trans (List.dropWhile_suffix (l := rest) (fun p => p.2)).length_le h
      have hsplit : rest.length = (rest.takeWhile (fun p => p.2)).length +
          (rest.dropWhile (fun p => p.2)).length := by
        conv_lhs => rw [← List.takeWhile_append_dropWhile
          (p := fun p => p.2) (l := rest)]
        rw [List.length_append]
      cases tag with
      | true =>
        cases hh : (rest.dropWhile (fun p => p.2)).head? with
        | none =>
          have hre : rest.dropWhile (fun p => p.2) = [] :=
            List.head?_eq_none_iff.mp hh
          rw [processTagged_true_none last l hh]
          simp only [List.length_append, List.length_cons, List.length_map]
          rw [hre] at hsplit
          simp at hsplit
          omega
        | some np =>
          obtain ⟨n', b⟩ := np
          have hrec := ih _ (some blankL) hlen'
          cases hb : isBlank n' with
          | true =>
            have hrec' := ih _ (some ((l :: (rest.takeWhile (fun p => p.2)).map
              (fun p => p.1)).getLastD blankL)) hlen'
            rw [processTagged_true_blank last l n' b hh hb]
            simp only [List.length_append, List.length_cons, List.length_map]
            omega
          | false =>
            rw [processTagged_true_nonblank last l n' b hh hb]
            simp only [List.length_append, List.length_cons, List.length_map]
            omega
      | false =>
        cases hd : isLineDisplay l with
        | true =>
          cases hh : rest.head? with
          | none =>
            have hre : rest = [] := List.head?_eq_none_iff.mp hh
            subst hre
            rw [processTagged_disp_none last l hd hh]
            simp
          | some np =>
            obtain ⟨n', b⟩ := np
            have hrec := ih _ (some (trimB l)) h
            have hrec2 := ih _ (some blankL) h
            cases hb : isBlank n' with
            | true =>
              rw [processTagged_disp_blank last l n' b hd hh hb]
              simp only [List.length_append, List.length_cons]
              omega
            | false =>
              rw [processTagged_disp_nonblank last l n' b hd hh hb]
              simp only [List.length_append, List.length_cons]
              omega
        | false =>
          have hrec := ih _ (some (if containsDD l then subInline l else l)) h
          rw [processTagged_plain last l hd]
          simp only [List.length_cons]
          omega

/-- C2: the claim that the rewriting pass keeps the line count
unchanged fails: a whole-line display expression that follows a
non-blank line gets a blank line inserted before it, so the two-line
input `a` / `$$x$$` produces three lines. -/
theorem c2_counterexample :
    (processLines [['a'], ['$', '$', 'x', '$', '$']]).length ≠
      ([['a'], ['$', '$', 'x', '$', '$']] : List Line).length := by
  have he : processLines [['a'], ['$', '$', 'x', '$', '$']] =
      [['a'], [], ['$', '$', 'x', '$', '$']] := by
    simp [processLines, tagBlocks, processTagged, splitAtMarker, isMarker, trimB,
      lstripL, rstripL, isSpace, isLineDisplay, dd, isBlank, containsDD,
      splitAtDD, subInline, splitCloser, prevNB, blankL]
    decide
  rw [he]
  decide

/-- C2 (amended): the rewriting pass emits the input's lines in order
— each verbatim, stripped, or with `$$…$$` pairs rewritten — possibly
interleaved with inserted blank lines: the output never has fewer
lines than the input, and its number of non-blank lines equals the
input's exactly. -/
theorem c2_amended_line_conservation (doc : List Line) :
    nbCount (processLines doc) = nbCount doc ∧
    doc.length ≤ (processLines doc).length := by
  constructor
  · rw [processLines,
      processTagged_nbCount (tagBlocks doc).length (tagBlocks doc) none le_rfl,
      tagBlocks_map_fst doc.length doc le_rfl]
  · have h1 := processTagged_length (tagBlocks doc).length (tagBlocks doc)
      none le_rfl
    rw [tagBlocks_length] at h1
    exact h1

/-!  ## Blank-line flanking of table runs (C4) -/

/-- Adjacent lines are compatibly spaced around tables: where a table
row meets a non-table line, the non-table line is blank. -/
def tableFlank (x y : Line) : Prop :=
  (isTableRow x = true ∧ isTableRow y = false → isBlank y = true) ∧
  (isTableRow y = true ∧ isTableRow x = false → isBlank x = true)

theorem isTableRow_of_blank {y : Line} (h : isBlank y = true) :
    isTableRow y = false := by
  have hl : lstripL y = [] := by
    simp only [isBlank, List.all_eq_true] at h
    simp only [lstripL, List.dropWhile_eq_nil_iff]
    exact h
  simp [isTableRow, hl, List.isPrefixOf]

theorem isImageRef_of_blank {y : Line} (h : isBlank y = true) :
    isImageRef y = false := by
  have hl : lstripL y = [] := by
    simp only [isBlank, List.all_eq_true] at h
    simp only [lstripL, List.dropWhile_eq_nil_iff]
    exact h
  simp [isImageRef, hl, List.isPrefixOf]

theorem isTableRow_of_image {y : Line} (h : isImageRef y = true) :
    isTableRow y = false := by
  cases hl : lstripL y with
  | nil => simp [isImageRef, hl, List.isPrefixOf] at h
  | cons c cs =>
    simp only [isImageRef, hl, List.isPrefixOf, Bool.and_eq_true, beq_iff_eq]
      at h
    obtain ⟨hc, -⟩ := h
    subst hc
    simp [isTableRow, hl, List.isPrefixOf]

theorem tableFlank_blank_left {x y : Line} (h : isBlank x = true) :
    tableFlank x y := by
  refine ⟨fun hc => ?_, fun _ => h⟩
  rw [isTableRow_of_blank h] at hc
  exact absurd hc.1 (by simp)

theorem tableFlank_blank_right {x y : Line} (h : isBlank y = true) :
    tableFlank x y := by
  refine ⟨fun _ => h, fun hc => ?_⟩
  rw [isTableRow_of_blank h] at hc
  exact absurd hc.1 (by simp)

theorem tableFlank_table_table {x y : Line} (hx : isTableRow x = true)
    (hy : isTableRow y = true) : tableFlank x y := by
  exact ⟨fun hc => absurd hy (by simp [hc.2]), fun hc => absurd hx (by simp [hc.2])⟩

theorem tableFlank_not_not {x y : Line} (hx : isTableRow x = false)
    (hy : isTableRow y = false) : tableFlank x y := by
  exact ⟨fun hc => absurd hx (by simp [hc.1]), fun hc => absurd hy (by simp [hc.1])⟩

theorem run_all_table {l : Line} {r : List Line} (ht : isTableRow l = true) :
    ∀ y ∈ l :: r.takeWhile isTableRow, isTableRow y = true := by
  intro y hy
  rcases List.mem_cons.mp hy with rfl | hy'
  · exact ht
  · exact List.mem_takeWhile_imp hy'

theorem chain'_run_append {run tail : List Line}
    (hrun : ∀ y ∈ run, isTableRow y = true) (htail : List.Chain' tableFlank tail)
    (hbd : ∀ y ∈ tail.head?, isBlank y = true ∨ isTableRow y = true) :
    List.Chain' tableFlank (run ++ tail) := by
  induction run with
  | nil => exact htail
  | cons r rs ih =>
    rw [List.cons_append, List.chain'_cons']
    refine ⟨?_, ih (fun y hy => hrun y (List.mem_cons_of_mem r hy))⟩
    intro y hy
    cases rs with
    | nil =>
      simp only [List.nil_append] at hy
      rcases hbd y hy with hb | htab
      · exact tableFlank_blank_right hb
      · exact tableFlank_table_table (hrun r (List.mem_cons_self r _)) htab
    | cons r2 rs2 =>
      simp only [List.cons_append, List.head?_cons, Option.mem_def,
        Option.some.injEq] at hy
      subst hy
      exact tableFlank_table_table (hrun r (List.mem_cons_self _ _))
        (hrun r2 (by simp))

/-- Prepend the tracked last-emitted line (when present) to an output
list, to state chain invariants across recursive calls. -/
def consO : Option Line → List Line → List Line
  | none, out => out
  | some x, out => x :: out

theorem chain'_consO_pre {last : Option Line} {X : List Line}
    (hX : List.Chain' tableFlank X)
    (hhd : ∀ x y, prevNB last = false → last = some x → X.head? = some y →
      tableFlank x y) :
    List.Chain' tableFlank
      (consO last ((if prevNB last then [blankL] else []) ++ X)) := by
  cases last with
  | none => simpa [consO, prevNB] using hX
  | some x =>
    cases hp : prevNB (some x) with
    | true =>
      simp only [consO, hp, if_true, List.cons_append, List.singleton_append]
      rw [List.chain'_cons']
      constructor
      · intro y hy
        simp only [List.head?_cons, Option.mem_def, Option.some.injEq] at hy
        subst hy
        exact tableFlank_blank_right rfl
      · rw [List.chain'_cons']
        exact ⟨fun y hy => tableFlank_blank_left rfl, hX⟩
    | false =>
      simp only [consO, hp, if_false, List.nil_append]
      rw [List.chain'_cons']
      refine ⟨fun y hy => hhd x y hp rfl hy, hX⟩

theorem getLastD_cons_mem : ∀ (xs : List Line) (x d : Line),
    (x :: xs).getLastD d ∈ x :: xs := by
  intro xs
  induction xs with
  | nil => intro x d; simp
  | cons y ys ih =>
    intro x d
    rw [List.getLastD_cons]
    exact List.mem_cons_of_mem x (ih y x)

theorem chain'_consO_nil (last : Option Line) :
    List.Chain' tableFlank (consO last []) := by
  cases last with
  | none => exact List.chain'_nil
  | some x => exact List.chain'_singleton x

/-- After the table/image spacing loop, wherever a table row meets a
non-table neighbour in the output, that neighbour is blank — provided
the tracked last-emitted line relates to the input head the way the
loop's recursive calls arrange (a table-row last is only carried into
a recursive call whose head is blank). -/
theorem spaceTables_chain : ∀ (n : ℕ) (ls : List Line) (last : Option Line),
    ls.length ≤ n →
    (∀ x y, last = some x → ls.head? = some y → isTableRow x = true →
      isBlank y = true ∨ isTableRow y = true ∨ isImageRef y = true) →
    List.Chain' tableFlank (consO last (spaceTables last ls)) := by
  intro n
  induction n with
  | zero =>
    intro ls last h _
    cases ls with
    | nil => rw [spaceTables_nil]; exact chain'_consO_nil last
    | cons l rest => simp at h
  | succ n ih =>
    intro ls last h hinv
    cases ls with
    | nil => rw [spaceTables_nil]; exact chain'_consO_nil last
    | cons l rest =>
      simp only [List.length_cons, Nat.add_le_add_iff_right] at h
      have hlen' : (rest.dropWhile isTableRow).length ≤ n :=
        le_trans (List.dropWhile_suffix (l := rest) isTableRow).length_le h
      have hblank_x : ∀ x : Line, prevNB (some x) = false → isBlank x = true := by
        intro x hp
        simp only [prevNB, Bool.not_eq_false'] at hp
        exact hp
      cases ht : isTableRow l with
      | true =>
        have hrun := run_all_table (r := rest) ht
        cases hre : rest.dropWhile isTableRow with
        | nil =>
          rw [spaceTables_table_none last l ht (by rw [hre]; rfl)]
          apply chain'_consO_pre
          · have := chain'_run_append hrun List.chain'_nil (by simp)
            rwa [List.append_nil] at this
          · intro x y hp hl hy
            simp only [List.head?_cons, Option.some.injEq] at hy
            subst hy
            exact tableFlank_blank_left (hblank_x x (hl ▸ hp))
        | cons m rest'' =>
          have hh : (rest.dropWhile isTableRow).head? = some m := by
            rw [hre]; rfl
          cases hb : isBlank m with
          | true =>
            rw [spaceTables_table_blank last l m ht hh hb, List.append_assoc]
            have hrl := getLastD_cons_mem ((rest.takeWhile isTableRow)) l blankL
            have hrec := ih (rest.dropWhile isTableRow)
              (some ((l :: rest.takeWhile isTableRow).getLastD blankL)) hlen'
              (by
                intro x y hx hy _
                rw [hre] at hy
                simp only [Option.some.injEq] at hx hy
                subst hx
                simp only [List.head?_cons, Option.some.injEq] at hy
                subst hy
                exact Or.inl hb)
            simp only [consO] at hrec
            apply chain'_consO_pre
            · apply chain'_run_append hrun
              · exact (List.chain'_cons'.mp hrec).2
              · intro y hy
                rw [hre, spaceTables_plain (r := rest'') _ m
                  (isTableRow_of_blank hb) (isImageRef_of_blank hb)] at hy
                simp only [Option.mem_def, List.head?_cons,
                  Option.some.injEq] at hy
                subst hy
                exact Or.inl hb
            · intro x y hp hl hy
              simp only [List.cons_append, List.head?_cons,
                Option.some.injEq] at hy
              subst hy
              exact tableFlank_blank_left (hblank_x x (hl ▸ hp))
          | false =>
            rw [spaceTables_table_nonblank last l m ht hh hb, List.append_assoc]
            have hrec := ih (rest.dropWhile isTableRow) (some blankL) hlen'
              (by
                intro x y hx _ hxt
                simp only [Option.some.injEq] at hx
                subst hx
                rw [isTableRow_of_blank isBlank_blankL] at hxt
                exact absurd hxt (by simp))
            simp only [consO] at hrec
            apply chain'_consO_pre
            · apply chain'_run_append hrun
              · exact hrec
              · intro y hy
                simp only [Option.mem_def, List.head?_cons,
                  Option.some.injEq] at hy
                subst hy
                exact Or.inl isBlank_blankL
            · intro x y hp hl hy
              simp only [List.cons_append, List.head?_cons,
                Option.some.injEq] at hy
              subst hy
              exact tableFlank_blank_left (hblank_x x (hl ▸ hp))
      | false =>
        cases hi : isImageRef l with
        | true =>
          cases hre : rest.head? with
          | none =>
            rw [spaceTables_image_none last l ht hi hre]
            apply chain'_consO_pre
            · exact List.chain'_singleton l
            · intro x y hp hl hy
              simp only [List.head?_cons, Option.some.injEq] at hy
              subst hy
              exact tableFlank_blank_left (hblank_x x (hl ▸ hp))
          | some m =>
            have hh : rest.head? = some m := hre
            cases hb : isBlank m with
            | true =>
              rw [spaceTables_image_blank last l m ht hi hh hb]
              have hrec := ih rest (some l) h
                (by
                  intro x y hx _ hxt
                  simp only [Option.some.injEq] at hx
                  subst hx
                  rw [ht] at hxt
                  exact absurd hxt (by simp))
              simp only [consO] at hrec
              apply chain'_consO_pre
              · exact hrec
              · intro x y hp hl hy
                simp only [List.head?_cons, Option.some.injEq] at hy
                subst hy
                exact tableFlank_blank_left (hblank_x x (hl ▸ hp))
            | false =>
              rw [spaceTables_image_nonblank last l m ht hi hh hb]
              have hrec := ih rest (some blankL) h
                (by
                  intro x y hx _ hxt
                  simp only [Option.some.injEq] at hx
                  subst hx
                  rw [isTableRow_of_blank isBlank_blankL] at hxt
                  exact absurd hxt (by simp))
              simp only [consO] at hrec
              apply chain'_consO_pre
              · rw [List.chain'_cons']
                refine ⟨?_, hrec⟩
                intro y hy
                simp only [Option.mem_def, List.head?_cons,
                  Option.some.injEq] at hy
                subst hy
                exact tableFlank_blank_right isBlank_blankL
              · intro x y hp hl hy
                simp only [List.head?_cons, Option.some.injEq] at hy
                subst hy
                exact tableFlank_blank_left (hblank_x x (hl ▸ hp))
        | false =>
          rw [spaceTables_plain last l ht hi]
          have hX : List.Chain' tableFlank (l :: spaceTables (some l) rest) := by
            have hrec := ih rest (some l) h
              (by
                intro x y hx _ hxt
                simp only [Option.some.injEq] at hx
                subst hx
                rw [ht] at hxt
                exact absurd hxt (by simp))
            simpa only [consO] using hrec
          cases last with
          | none => simpa [consO] using hX
          | some x =>
            simp only [consO]
            rw [List.chain'_cons']
            refine ⟨?_, hX⟩
            intro y hy
            simp only [Option.mem_def, List.head?_cons, Option.some.injEq] at hy
            subst hy
            cases hbx : isBlank x with
            | true => exact tableFlank_blank_left hbx
            | false =>
              cases hxt : isTableRow x with
              | false => exact tableFlank_not_not hxt ht
              | true =>
                rcases hinv x l rfl rfl hxt with hbl | hlt | hli
                · exact tableFlank_blank_right hbl
                · rw [ht] at hlt; exact absurd hlt (by simp)
                · rw [hi] at hli; exact absurd hli (by simp)

/-- C4: the claim that exactly one blank line precedes a table run
regardless of input spacing fails: the spacer only inserts blank
lines and never removes them, so two blank lines before a table row
survive normalization unchanged. -/
theorem c4_counterexample :
    normalizeLines [['a'], [], [], ['|', 'x', '|']] =
      [['a'], [], [], ['|', 'x', '|']] ∧
    isBlank ([] : Line) = true ∧ isTableRow ['|', 'x', '|'] = true := by
  refine ⟨?_, rfl, by decide⟩
  simp [normalizeLines, processLines, tagBlocks, processTagged, spaceTables,
    splitAtMarker, isMarker, trimB, lstripL, rstripL, isSpace, isLineDisplay,
    dd, isBlank, containsDD, splitAtDD, subInline, splitCloser, prevNB, blankL,
    isTableRow, isImageRef, List.isPrefixOf]

/-- C4 (amended): after normalization, every maximal run of table-row
lines is flanked by blank lines on any side where it meets a
non-table line — at least one blank line precedes and follows it
(unless the run touches the start or end of the text); the spacer
does not collapse pre-existing repeated blank lines to exactly one. -/
theorem c4_amended_table_flanking (doc : List Line) :
    List.Chain' tableFlank (normalizeLines doc) := by
  have h := spaceTables_chain (processLines doc).length (processLines doc) none
    le_rfl (by intro x y hx; simp at hx)
  simpa only [consO, normalizeLines] using h

/-!  ## Idempotence of the spacing pass on well-spaced input (C5) -/

/-- Adjacent lines `x, y` are already correctly spaced for the
table/image spacer: a table row meeting a non-table line meets a
blank one, and an image reference line has blank neighbours. -/
def wellSpacedPair (x y : Line) : Bool :=
  (!(isTableRow x) || isTableRow y || isBlank y) &&
  (!(isTableRow y) || isTableRow x || isBlank x) &&
  (!(isImageRef x) || isBlank y) &&
  (!(isImageRef y) || isBlank x)

/-- A text whose table runs and image lines are already blank-line
padded. -/
def wellSpaced (ls : List Line) : Prop :=
  List.Chain' (fun x y => wellSpacedPair x y = true) ls

theorem getLast?_cons_getLastD (x d : Line) : ∀ (xs : List Line),
    (x :: xs).getLast? = some ((x :: xs).getLastD d) := by
  intro xs
  induction xs generalizing x d with
  | nil => simp
  | cons y ys ih =>
    rw [List.getLastD_cons, List.getLast?_cons_cons]
    exact ih y x

theorem isBlank_not_table_row {x : Line} (h : isTableRow x = true) :
    isBlank x = false := by
  cases hb : isBlank x with
  | false => rfl
  | true => rw [isTableRow_of_blank hb] at h; exact absurd h (by simp)

/-- On already-correctly-spaced input the table/image spacing loop is
the identity, provided the tracked previous line is not one whose
non-blankness would trigger an insertion before the current head
(vacuously true at the top-level call). -/
theorem spaceTables_id : ∀ (n : ℕ) (ls : List Line) (last : Option Line),
    ls.length ≤ n → wellSpaced ls →
    (∀ x y, last = some x → ls.head? = some y →
      (isTableRow y = true ∨ isImageRef y = true) → isBlank x = true) →
    spaceTables last ls = ls := by
  intro n
  induction n with
  | zero =>
    intro ls last h _ _
    cases ls with
    | nil => exact spaceTables_nil last
    | cons l rest => simp at h
  | succ n ih =>
    intro ls last h hws hcond
    cases ls with
    | nil => exact spaceTables_nil last
    | cons l rest =>
      simp only [List.length_cons, Nat.add_le_add_iff_right] at h
      have hlen' : (rest.dropWhile isTableRow).length ≤ n :=
        le_trans (List.dropWhile_suffix (l := rest) isTableRow).length_le h
      have hws' : List.Chain' (fun x y => wellSpacedPair x y = true) rest :=
        (List.chain'_cons'.mp hws).2
      have hpairhd : ∀ y ∈ rest.head?, wellSpacedPair l y = true :=
        (List.chain'_cons'.mp hws).1
      cases ht : isTableRow l with
      | true =>
        have hpre : (if prevNB last then [blankL] else []) = [] := by
          cases last with
          | none => rfl
          | some x =>
            rw [show prevNB (some x) = false by
              simp [prevNB, hcond x l rfl rfl (Or.inl ht)]]
            rfl
        -- boundary pair between the run's last row and what follows it
        have hsplit : l :: rest =
            (l :: rest.takeWhile isTableRow) ++ rest.dropWhile isTableRow := by
          rw [List.cons_append, List.takeWhile_append_dropWhile]
        have hbound := (List.chain'_append.mp (hsplit ▸ hws)).2.2
        cases hre : rest.dropWhile isTableRow with
        | nil =>
          rw [spaceTables_table_none last l ht (by rw [hre]; rfl), hpre,
            List.nil_append]
          have hts := List.takeWhile_append_dropWhile (p := isTableRow)
            (l := rest)
          rw [hre, List.append_nil] at hts
          rw [hts]
        | cons m rest'' =>
          have hh : (rest.dropWhile isTableRow).head? = some m := by
            rw [hre]; rfl
          have hmt : isTableRow m = false := by
            have := List.head?_dropWhile_not isTableRow rest
            rw [hh] at this
            exact this
          have hlastrow : isTableRow ((l :: rest.takeWhile isTableRow).getLastD blankL) = true := by
            exact run_all_table ht _ (getLastD_cons_mem _ l blankL)
          have hlastrow' := hlastrow
          simp only [List.getLastD_eq_getLast?] at hlastrow'
          have hpair := hbound _ (by
              rw [getLast?_cons_getLastD l blankL]
              rfl) m (by rw [hh]; rfl)
          have hbm : isBlank m = true := by
            cases hbm2 : isBlank m with
            | true => rfl
            | false => simp [wellSpacedPair, hlastrow, hlastrow', hmt, hbm2] at hpair
          rw [spaceTables_table_blank last l m ht hh hbm, hpre, List.nil_append]
          have hrec : spaceTables
              (some ((l :: rest.takeWhile isTableRow).getLastD blankL))
              (rest.dropWhile isTableRow) = rest.dropWhile isTableRow := by
            apply ih _ _ hlen'
            · have hsuffix := (List.chain'_append.mp (hsplit ▸ hws)).2.1
              exact hsuffix
            · intro x y hx hy hty
              simp only [Option.some.injEq] at hx
              subst hx
              rw [hh, Option.some.injEq] at hy
              subst hy
              rcases hty with hyt | hyi
              · rw [hmt] at hyt; exact absurd hyt (by simp)
              · cases hbl : isBlank ((l :: rest.takeWhile isTableRow).getLastD blankL) with
                | true => rfl
                | false =>
                  have hbl' := hbl
                  simp only [List.getLastD_eq_getLast?] at hbl'
                  simp [wellSpacedPair, hyi, hbl, hbl'] at hpair
          rw [hrec, List.cons_append, List.takeWhile_append_dropWhile]
      | false =>
        cases hi : isImageRef l with
        | true =>
          have hpre : (if prevNB last then [blankL] else []) = [] := by
            cases last with
            | none => rfl
            | some x =>
              rw [show prevNB (some x) = false by
                simp [prevNB, hcond x l rfl rfl (Or.inr hi)]]
              rfl
          cases hre : rest.head? with
          | none =>
            rw [spaceTables_image_none last l ht hi hre, hpre, List.nil_append]
            rw [List.head?_eq_none_iff.mp hre]
          | some m =>
            have hpair : wellSpacedPair l m = true := hpairhd m (by rw [hre]; rfl)
            have hbm : isBlank m = true := by
              cases hbm2 : isBlank m with
              | true => rfl
              | false => simp [wellSpacedPair, hi, hbm2] at hpair
            rw [spaceTables_image_blank last l m ht hi hre hbm, hpre,
              List.nil_append]
            have hrec : spaceTables (some l) rest = rest := by
              apply ih _ _ h hws'
              intro x y hx hy hty
              simp only [Option.some.injEq] at hx
              subst hx
              rw [hre, Option.some.injEq] at hy
              subst hy
              cases hbl : isBlank l with
              | true => rfl
              | false =>
                rcases hty with hyt | hyi
                · simp [wellSpacedPair, hyt, ht, hbl] at hpair
                · simp [wellSpacedPair, hyi, hbl] at hpair
            rw [hrec]
        | false =>
          rw [spaceTables_plain last l ht hi]
          have hrec : spaceTables (some l) rest = rest := by
            apply ih _ _ h hws'
            intro x y hx hy hty
            simp only [Option.some.injEq] at hx
            subst hx
            have hpair : wellSpacedPair l y = true := hpairhd y (by rw [hy]; rfl)
            cases hbl : isBlank l with
            | true => rfl
            | false =>
              rcases hty with hyt | hyi
              · simp [wellSpacedPair, hyt, ht, hbl] at hpair
              · simp [wellSpacedPair, hyi, hbl] at hpair
          rw [hrec]

/-- C5: taking "the block spacer" to be the cited normalization code
(converter.py lines 61–132), the idempotence claim fails even on
correctly-spaced input: the inline-math rewriting inside that code is
not idempotent.  The single (trivially well-spaced) line
`x$$$a$$$$b$$` becomes `x$$a$$b$` after one pass and `x$a$b$` after
two. -/
theorem c5_counterexample :
    wellSpaced [['x', '$', '$', '$', 'a', '$', '$', '$', '$', 'b', '$', '$']] ∧
    normalizeLines (normalizeLines
      [['x', '$', '$', '$', 'a', '$', '$', '$', '$', 'b', '$', '$']]) ≠
      normalizeLines
        [['x', '$', '$', '$', 'a', '$', '$', '$', '$', 'b', '$', '$']] := by
  constructor
  · exact List.chain'_singleton _
  · have h1 : normalizeLines
        [['x', '$', '$', '$', 'a', '$', '$', '$', '$', 'b', '$', '$']] =
        [['x', '$', '$', 'a', '$', '$', 'b', '$']] := by
      simp [normalizeLines, processLines, tagBlocks, processTagged, spaceTables,
        splitAtMarker, isMarker, trimB, lstripL, rstripL, isSpace, isLineDisplay,
        dd, isBlank, containsDD, splitAtDD, subInline, splitCloser, prevNB,
        blankL, isTableRow, isImageRef, List.isPrefixOf]
    have h2 : normalizeLines [['x', '$', '$', 'a', '$', '$', 'b', '$']] =
        [['x', '$', 'a', '$', 'b', '$']] := by
      simp [normalizeLines, processLines, tagBlocks, processTagged, spaceTables,
        splitAtMarker, isMarker, trimB, lstripL, rstripL, isSpace, isLineDisplay,
        dd, isBlank, containsDD, splitAtDD, subInline, splitCloser, prevNB,
        blankL, isTableRow, isImageRef, List.isPrefixOf]
    rw [h1, h2]
    decide

/-- C5 (amended): the spacing-only pass (the table/image spacer,
converter.py lines 109–132) is the identity on already-correctly-
spaced input, hence idempotent there; the full cited code is not,
because the math rewriting is not. -/
theorem c5_amended_spacer_idempotent (ls : List Line) (h : wellSpaced ls) :
    spaceTables none ls = ls ∧
    spaceTables none (spaceTables none ls) = spaceTables none ls := by
  have h1 : spaceTables none ls = ls :=
    spaceTables_id ls.length ls none le_rfl h (by intro x y hx; simp at hx)
  exact ⟨h1, by rw [h1]; exact h1⟩

/-- Witness for `c5_amended_spacer_idempotent` on a well-spaced text
with one table row. -/
theorem c5_amended_spacer_idempotent_witness :
    wellSpaced [['a'], [], ['|', 'x', '|']] ∧
    (spaceTables none [['a'], [], ['|', 'x', '|']] = [['a'], [], ['|', 'x', '|']] ∧
      spaceTables none (spaceTables none [['a'], [], ['|', 'x', '|']]) =
        spaceTables none [['a'], [], ['|', 'x', '|']]) := by
  have hws : wellSpaced [['a'], [], ['|', 'x', '|']] := by
    unfold wellSpaced
    rw [List.chain'_cons, List.chain'_cons]
    exact ⟨by decide, by decide, List.chain'_singleton _⟩
  exact ⟨hws, c5_amended_spacer_idempotent _ hws⟩

/-!  ## No new adjacent blank lines (C6) -/

/-- Adjacent lines are not both blank. -/
def noTwoBlanks (x y : Line) : Prop := ¬(isBlank x = true ∧ isBlank y = true)

/-- No two adjacent lines of the text are both blank. -/
def noAdjBlanks (ls : List Line) : Prop := List.Chain' noTwoBlanks ls

theorem noTwoBlanks_left {x y : Line} (h : isBlank x = false) :
    noTwoBlanks x y := by
  rintro ⟨h1, -⟩
  rw [h] at h1
  exact absurd h1 (by simp)

theorem noTwoBlanks_right {x y : Line} (h : isBlank y = false) :
    noTwoBlanks x y := by
  rintro ⟨-, h2⟩
  rw [h] at h2
  exact absurd h2 (by simp)

theorem isBlank_not_image {y : Line} (h : isImageRef y = true) :
    isBlank y = false := by
  cases hb : isBlank y with
  | false => rfl
  | true => rw [isImageRef_of_blank hb] at h; exact absurd h (by simp)

theorem chain'_consO_nb_nil (last : Option Line) :
    List.Chain' noTwoBlanks (consO last []) := by
  cases last with
  | none => exact List.chain'_nil
  | some x => exact List.chain'_singleton x

theorem chain'_all_nonblank {run : List Line}
    (h : ∀ y ∈ run, isBlank y = false) : List.Chain' noTwoBlanks run := by
  induction run with
  | nil => exact List.chain'_nil
  | cons r rs ih =>
    rw [List.chain'_cons']
    refine ⟨fun y _ => noTwoBlanks_left (h r (List.mem_cons_self r rs)),
      ih (fun y hy => h y (List.mem_cons_of_mem r hy))⟩

/-- The table/image spacing loop creates no adjacent pair of blank
lines: every blank it inserts sits between two non-blank lines. -/
theorem spaceTables_noAdj : ∀ (n : ℕ) (ls : List Line) (last : Option Line),
    ls.length ≤ n → List.Chain' noTwoBlanks ls →
    (∀ x y, last = some x → ls.head? = some y → isBlank x = true →
      isBlank y = false) →
    List.Chain' noTwoBlanks (consO last (spaceTables last ls)) := by
  intro n
  induction n with
  | zero =>
    intro ls last h _ _
    cases ls with
    | nil => rw [spaceTables_nil]; exact chain'_consO_nb_nil last
    | cons l rest => simp at h
  | succ n ih =>
    intro ls last h hch hinv
    cases ls with
    | nil => rw [spaceTables_nil]; exact chain'_consO_nb_nil last
    | cons l rest =>
      simp only [List.length_cons, Nat.add_le_add_iff_right] at h
      have hlen' : (rest.dropWhile isTableRow).length ≤ n :=
        le_trans (List.dropWhile_suffix (l := rest) isTableRow).length_le h
      -- boundary between `last` (when present) and a non-blank first emission
      have hpre_ok : ∀ (X : List Line), List.Chain' noTwoBlanks X →
          (∀ y, X.head? = some y → isBlank y = false) →
          List.Chain' noTwoBlanks
            (consO last ((if prevNB last then [blankL] else []) ++ X)) := by
        intro X hX hXh
        cases last with
        | none => simpa [consO, prevNB] using hX
        | some x =>
          cases hp : prevNB (some x) with
          | true =>
            simp only [consO, hp, if_true, List.cons_append,
              List.singleton_append]
            rw [List.chain'_cons']
            constructor
            · intro y hy
              simp only [Option.mem_def, List.head?_cons,
                Option.some.injEq] at hy
              subst hy
              apply noTwoBlanks_left
              simp only [prevNB, Bool.not_eq_true'] at hp
              exact hp
            · rw [List.chain'_cons']
              refine ⟨fun y hy => ?_, hX⟩
              simp only [Option.mem_def] at hy
              exact noTwoBlanks_right (hXh y hy)
          | false =>
            simp only [consO, hp, if_false, List.nil_append]
            rw [List.chain'_cons']
            refine ⟨fun y hy => ?_, hX⟩
            simp only [Option.mem_def] at hy
            exact noTwoBlanks_right (hXh y hy)
      cases ht : isTableRow l with
      | true =>
        have hrun : ∀ y ∈ l :: rest.takeWhile isTableRow, isBlank y = false :=
          fun y hy => isBlank_not_table_row (run_all_table ht y hy)
        have hchain_run : List.Chain' noTwoBlanks (l :: rest.takeWhile isTableRow) :=
          chain'_all_nonblank hrun
        have hrunlast : isBlank ((l :: rest.takeWhile isTableRow).getLastD blankL) = false :=
          hrun _ (getLastD_cons_mem _ l blankL)
        cases hre : rest.dropWhile isTableRow with
        | nil =>
          rw [spaceTables_table_none last l ht (by rw [hre]; rfl)]
          exact hpre_ok _ hchain_run (fun y hy => by
            simp only [List.head?_cons, Option.some.injEq] at hy
            subst hy
            exact hrun l (List.mem_cons_self _ _))
        | cons m rest'' =>
          have hh : (rest.dropWhile isTableRow).head? = some m := by
            rw [hre]; rfl
          cases hb : isBlank m with
          | true =>
            rw [spaceTables_table_blank last l m ht hh hb, List.append_assoc]
            have hrec := ih (rest.dropWhile isTableRow)
              (some ((l :: rest.takeWhile isTableRow).getLastD blankL)) hlen'
              (by
                have hsplit : l :: rest =
                    (l :: rest.takeWhile isTableRow) ++ rest.dropWhile isTableRow := by
                  rw [List.cons_append, List.takeWhile_append_dropWhile]
                exact (List.chain'_append.mp (hsplit ▸ hch)).2.1)
              (by
                intro x y hx hy hxb
                simp only [Option.some.injEq] at hx
                subst hx
                rw [hrunlast] at hxb
                exact absurd hxb (by simp))
            simp only [consO] at hrec
            apply hpre_ok
            · rw [List.chain'_append]
              refine ⟨hchain_run, (List.chain'_cons'.mp hrec).2, ?_⟩
              intro x hx y hy
              rw [getLast?_cons_getLastD l blankL, Option.mem_def,
                Option.some.injEq] at hx
              subst hx
              exact (List.chain'_cons'.mp hrec).1 y hy
            · intro y hy
              simp only [List.cons_append, List.head?_cons,
                Option.some.injEq] at hy
              subst hy
              exact hrun l (List.mem_cons_self _ _)
          | false =>
            rw [spaceTables_table_nonblank last l m ht hh hb, List.append_assoc]
            have hrec := ih (rest.dropWhile isTableRow) (some blankL) hlen'
              (by
                have hsplit : l :: rest =
                    (l :: rest.takeWhile isTableRow) ++ rest.dropWhile isTableRow := by
                  rw [List.cons_append, List.takeWhile_append_dropWhile]
                exact (List.chain'_append.mp (hsplit ▸ hch)).2.1)
              (by
                intro x y hx hy _
                simp only [Option.some.injEq] at hx
                subst hx
                rw [hre] at hy
                simp only [List.head?_cons, Option.some.injEq] at hy
                subst hy
                exact hb)
            simp only [consO] at hrec
            apply hpre_ok
            · rw [List.chain'_append]
              refine ⟨hchain_run, hrec, ?_⟩
              intro x hx y hy
              rw [getLast?_cons_getLastD l blankL, Option.mem_def,
                Option.some.injEq] at hx
              subst hx
              simp only [List.head?_cons, Option.mem_def, Option.some.injEq] at hy
              subst hy
              exact noTwoBlanks_left hrunlast
            · intro y hy
              simp only [List.cons_append, List.head?_cons,
                Option.some.injEq] at hy
              subst hy
              exact hrun l (List.mem_cons_self _ _)
      | false =>
        cases hi : isImageRef l with
        | true =>
          have hlb : isBlank l = false := isBlank_not_image hi
          cases hre : rest.head? with
          | none =>
            rw [spaceTables_image_none last l ht hi hre]
            exact hpre_ok _ (List.chain'_singleton l) (fun y hy => by
              simp only [List.head?_cons, Option.some.injEq] at hy
              subst hy
              exact hlb)
          | some m =>
            cases hb : isBlank m with
            | true =>
              rw [spaceTables_image_blank last l m ht hi hre hb]
              have hrec := ih rest (some l) h (List.chain'_cons'.mp hch).2
                (by
                  intro x y hx hy hxb
                  simp only [Option.some.injEq] at hx
                  subst hx
                  rw [hlb] at hxb
                  exact absurd hxb (by simp))
              simp only [consO] at hrec
              exact hpre_ok _ hrec (fun y hy => by
                simp only [List.head?_cons, Option.some.injEq] at hy
                subst hy
                exact hlb)
            | false =>
              rw [spaceTables_image_nonblank last l m ht hi hre hb]
              have hrec := ih rest (some blankL) h (List.chain'_cons'.mp hch).2
                (by
                  intro x y hx hy _
                  simp only [Option.some.injEq] at hx
                  subst hx
                  rw [hre, Option.some.injEq] at hy
                  subst hy
                  exact hb)
              simp only [consO] at hrec
              apply hpre_ok
              · rw [List.chain'_cons']
                refine ⟨fun y hy => ?_, hrec⟩
                simp only [List.head?_cons, Option.mem_def,
                  Option.some.injEq] at hy
                subst hy
                exact noTwoBlanks_left hlb
              · intro y hy
                simp only [List.head?_cons, Option.some.injEq] at hy
                subst hy
                exact hlb
        | false =>
          rw [spaceTables_plain last l ht hi]
          have hrec := ih rest (some l) h (List.chain'_cons'.mp hch).2
            (by
              intro x y hx hy hxb
              simp only [Option.some.injEq] at hx
              subst hx
              have := (List.chain'_cons'.mp hch).1 y (by
                simp only [Option.mem_def]
                exact hy)
              cases hby : isBlank y with
              | false => rfl
              | true => exact absurd ⟨hxb, hby⟩ this)
          simp only [consO] at hrec
          cases last with
          | none => simpa [consO] using hrec
          | some x =>
            simp only [consO]
            rw [List.chain'_cons']
            refine ⟨?_, hrec⟩
            intro y hy
            simp only [List.head?_cons, Option.mem_def, Option.some.injEq] at hy
            subst hy
            cases hbx : isBlank x with
            | false => exact noTwoBlanks_left hbx
            | true => exact noTwoBlanks_right (hinv x l rfl rfl hbx)

theorem isMarker_nonblank {m : Line} (h : isMarker m = true) :
    isBlank m = false := by
  have ht : trimB m = dd := of_decide_eq_true h
  rw [← isBlank_trimB, ht]
  decide

/-- The tag of the first element (`false` for an empty list). -/
def nextTag : List (Line × Bool) → Bool
  | [] => false
  | p :: _ => p.2

/-- Every maximal flagged run begins and ends with a non-blank line
(`prev` is the tag of the element before the list, `false` at the
start of the text). -/
def runsOK : Bool → List (Line × Bool) → Prop
  | _, [] => True
  | prev, (l, t) :: rest =>
    (t = true → prev = false → isBlank l = false) ∧
    (t = true → nextTag rest = false → isBlank l = false) ∧
    runsOK t rest

theorem runsOK_all_false (prev : Bool) (ls : List Line) :
    runsOK prev (ls.map (fun x => (x, false))) := by
  induction ls generalizing prev with
  | nil => trivial
  | cons x rest ih =>
    exact ⟨by simp, by simp, ih false⟩

theorem runsOK_append_true : ∀ (p : List Line) (tl : List (Line × Bool)),
    (∀ x ∈ p.getLast?, isBlank x = false) → runsOK true tl →
    runsOK true (p.map (fun x => (x, true)) ++ tl) := by
  intro p
  induction p with
  | nil => intro tl _ htl; exact htl
  | cons x p' ih =>
    intro tl hlast htl
    refine ⟨fun _ hc => absurd hc (by simp), ?_, ?_⟩
    · intro _ hnt
      cases p' with
      | nil =>
        exact hlast x (by simp)
      | cons y p'' =>
        simp [nextTag] at hnt
    · cases p' with
      | nil => exact htl
      | cons y p'' =>
        apply ih _ _ htl
        intro z hz
        apply hlast
        rw [List.getLast?_cons_cons]
        exact hz

theorem runsOK_swap {a b : Bool} : ∀ {tl : List (Line × Bool)},
    nextTag tl = false → runsOK a tl → runsOK b tl := by
  intro tl hnt h
  cases tl with
  | nil => trivial
  | cons hd rest =>
    obtain ⟨l, t⟩ := hd
    have ht : t = false := hnt
    subst ht
    exact ⟨by simp, by simp, h.2.2⟩

theorem nextTag_dropWhile (tl : List (Line × Bool)) :
    nextTag (tl.dropWhile (fun p => p.2)) = false := by
  have h := List.head?_dropWhile_not (fun p => p.2) tl
  cases hh : (tl.dropWhile (fun p => p.2)).head? with
  | none =>
    have : tl.dropWhile (fun p => p.2) = [] := List.head?_eq_none_iff.mp hh
    rw [this]; rfl
  | some p =>
    rw [hh] at h
    cases hre : tl.dropWhile (fun p => p.2) with
    | nil => rfl
    | cons q rest =>
      rw [hre] at hh
      simp only [List.head?_cons, Option.some.injEq] at hh
      subst hh
      exact h

theorem runsOK_dropWhile : ∀ (tl : List (Line × Bool)) (prev : Bool),
    runsOK prev tl → runsOK true (tl.dropWhile (fun p => p.2)) := by
  intro tl
  induction tl with
  | nil => intro prev _; trivial
  | cons hd rest ih =>
    intro prev h
    obtain ⟨l, t⟩ := hd
    cases t with
    | true =>
      rw [List.dropWhile_cons_of_pos (by simp)]
      exact ih true h.2.2
    | false =>
      rw [List.dropWhile_cons_of_neg (by simp)]
      exact ⟨by simp, by simp, h.2.2⟩

theorem splitAtMarker_last : ∀ {ls p r : List Line},
    splitAtMarker ls = some (p, r) → ∀ x ∈ p.getLast?, isMarker x = true := by
  intro ls
  induction ls with
  | nil => intro p r h; simp [splitAtMarker] at h
  | cons l rest ih =>
    intro p r h
    simp only [splitAtMarker] at h
    split at h
    · rename_i hm
      simp only [Option.some.injEq, Prod.mk.injEq] at h
      obtain ⟨hp, -⟩ := h
      subst hp
      intro x hx
      simp only [List.getLast?_singleton, Option.mem_def,
        Option.some.injEq] at hx
      subst hx
      exact hm
    · cases hsm : splitAtMarker rest with
      | none => rw [hsm] at h; simp at h
      | some pr =>
        rw [hsm] at h
        simp only [Option.map_some', Option.some.injEq, Prod.mk.injEq] at h
        obtain ⟨hp, -⟩ := h
        subst hp
        intro x hx
        obtain ⟨-, hpne⟩ := splitAtMarker_eq_some (p := pr.1) (r := pr.2)
          (by rw [hsm])
        cases hq : pr.1 with
        | nil => exact absurd hq hpne
        | cons y ys =>
          rw [hq, List.getLast?_cons_cons] at hx
          exact ih (p := pr.1) (r := pr.2) (by rw [hsm]) x (by rw [hq]; exact hx)

theorem runsOK_tagBlocks : ∀ (n : ℕ) (doc : List Line) (prev : Bool),
    doc.length ≤ n → runsOK prev (tagBlocks doc) := by
  intro n
  induction n with
  | zero =>
    intro doc prev h
    cases doc with
    | nil => rw [tagBlocks_nil]; trivial
    | cons l rest => simp at h
  | succ n ih =>
    intro doc prev h
    cases doc with
    | nil => rw [tagBlocks_nil]; trivial
    | cons l rest =>
      simp only [List.length_cons, Nat.add_le_add_iff_right] at h
      cases hm : isMarker l with
      | false =>
        rw [tagBlocks_not_marker hm]
        exact ⟨by simp, by simp, ih rest false h⟩
      | true =>
        cases hs : splitAtMarker rest with
        | none =>
          rw [tagBlocks_marker_none hm hs]
          exact ⟨by simp, by simp, runsOK_all_false false rest⟩
        | some pr =>
          obtain ⟨p, r⟩ := pr
          obtain ⟨he, hpne⟩ := splitAtMarker_eq_some hs
          have hr : r.length ≤ n := by
            subst he
            cases p with
            | nil => exact absurd rfl hpne
            | cons x xs => simp at h; omega
          rw [tagBlocks_marker_some hm hs]
          refine ⟨fun _ _ => isMarker_nonblank hm, fun _ _ => isMarker_nonblank hm, ?_⟩
          apply runsOK_append_true
          · intro x hx
            exact isMarker_nonblank (splitAtMarker_last hs x hx)
          · exact ih r true hr

theorem runsOK_run_last : ∀ (n : ℕ) (rest : List (Line × Bool)) (l : Line)
    (prev : Bool), rest.length ≤ n → runsOK prev ((l, true) :: rest) →
    isBlank ((l :: (rest.takeWhile (fun p => p.2)).map (fun p => p.1)).getLastD
      blankL) = false := by
  intro n
  induction n with
  | zero =>
    intro rest l prev h hok
    cases rest with
    | nil =>
      simp only [List.takeWhile_nil, List.map_nil, List.getLastD_cons, List.getLastD_nil]
      exact hok.2.1 rfl rfl
    | cons hd r => simp at h
  | succ n ih =>
    intro rest l prev h hok
    cases rest with
    | nil =>
      simp only [List.takeWhile_nil, List.map_nil, List.getLastD_cons, List.getLastD_nil]
      exact hok.2.1 rfl rfl
    | cons hd r =>
      obtain ⟨y, t⟩ := hd
      simp only [List.length_cons, Nat.add_le_add_iff_right] at h
      cases t with
      | false =>
        rw [List.takeWhile_cons_of_neg (by simp)]
        simp only [List.map_nil, List.getLastD_cons, List.getLastD_nil]
        exact hok.2.1 rfl rfl
      | true =>
        rw [List.takeWhile_cons_of_pos (by simp)]
        simp only [List.map_cons, List.getLastD_cons]
        have := ih r y true h hok.2.2
        rwa [List.getLastD_cons] at this

theorem isLineDisplay_trim_nonblank {l : Line} (h : isLineDisplay l = true) :
    isBlank (trimB l) = false := by
  simp only [isLineDisplay, Bool.and_eq_true] at h
  obtain ⟨⟨-, hpre⟩, -⟩ := h
  cases ht : trimB l with
  | nil => rw [ht] at hpre; simp [dd, List.isPrefixOf] at hpre
  | cons c cs =>
    rw [ht] at hpre
    simp only [dd, List.isPrefixOf, Bool.and_eq_true, beq_iff_eq] at hpre
    obtain ⟨hc, -⟩ := hpre
    subst hc
    simp [isBlank_cons, isSpace_dollar]

theorem chain'_consO_nb (last : Option Line) (X : List Line)
    (hX : List.Chain' noTwoBlanks X)
    (hXh : ∀ y, X.head? = some y → isBlank y = false) :
    List.Chain' noTwoBlanks
      (consO last ((if prevNB last then [blankL] else []) ++ X)) := by
  cases last with
  | none => simpa [consO, prevNB] using hX
  | some x =>
    cases hp : prevNB (some x) with
    | true =>
      simp only [consO, hp, if_true, List.cons_append, List.singleton_append]
      rw [List.chain'_cons']
      constructor
      · intro y hy
        simp only [Option.mem_def, List.head?_cons, Option.some.injEq] at hy
        subst hy
        apply noTwoBlanks_left
        simp only [prevNB, Bool.not_eq_true'] at hp
        exact hp
      · rw [List.chain'_cons']
        refine ⟨fun y hy => ?_, hX⟩
        simp only [Option.mem_def] at hy
        exact noTwoBlanks_right (hXh y hy)
    | false =>
      simp only [consO, hp, if_false, List.nil_append]
      rw [List.chain'_cons']
      refine ⟨fun y hy => ?_, hX⟩
      simp only [Option.mem_def] at hy
      exact noTwoBlanks_right (hXh y hy)

/-- The rewriting loop creates no adjacent pair of blank lines: the
blocks it copies start and end with a (non-blank) marker line, the
whole-line display expressions it emits are non-blank, and every blank
line it inserts sits next to non-blank lines only. -/
theorem processTagged_noAdj : ∀ (n : ℕ) (tl : List (Line × Bool))
    (last : Option Line), tl.length ≤ n →
    List.Chain' noTwoBlanks (tl.map (fun p => p.1)) →
    runsOK false tl →
    (∀ x y b, last = some x → tl.head? = some (y, b) → isBlank x = true →
      isBlank y = false) →
    List.Chain' noTwoBlanks (consO last (processTagged last tl)) := by
  intro n
  induction n with
  | zero =>
    intro tl last h _ _ _
    cases tl with
    | nil => rw [processTagged_nil]; exact chain'_consO_nb_nil last
    | cons hd rest => simp at h
  | succ n ih =>
    intro tl last h hch hok hinv
    cases tl with
    | nil => rw [processTagged_nil]; exact chain'_consO_nb_nil last
    | cons hd rest =>
      obtain ⟨l, tag⟩ := hd
      simp only [List.length_cons, Nat.add_le_add_iff_right] at h
      simp only [List.map_cons] at hch
      have hlen' : (rest.dropWhile (fun p => p.2)).length ≤ n :=
        le_trans (List.dropWhile_suffix (l := rest) (fun p => p.2)).length_le h
      cases tag with
      | true =>
        have hl_nb : isBlank l = false := hok.1 rfl rfl
        have hsplit : l :: rest.map (fun p => p.1) =
            (l :: (rest.takeWhile (fun p => p.2)).map (fun p => p.1)) ++
              (rest.dropWhile (fun p => p.2)).map (fun p => p.1) := by
          rw [List.cons_append, ← map_fst_takeWhile_dropWhile]
        have hchsplit := List.chain'_append.mp (hsplit ▸ hch)
        have hrunlast := runsOK_run_last rest.length rest l false le_rfl hok
        have hok' : runsOK false (rest.dropWhile (fun p => p.2)) :=
          runsOK_swap (nextTag_dropWhile rest)
            (runsOK_dropWhile rest true hok.2.2)
        cases hh : (rest.dropWhile (fun p => p.2)).head? with
        | none =>
          rw [processTagged_true_none last l hh]
          exact chain'_consO_nb last _ hchsplit.1 (fun y hy => by
            simp only [List.head?_cons, Option.some.injEq] at hy
            subst hy
            exact hl_nb)
        | some np =>
          obtain ⟨m, b⟩ := np
          cases hb : isBlank m with
          | true =>
            rw [processTagged_true_blank last l m b hh hb, List.append_assoc]
            have hrec := ih (rest.dropWhile (fun p => p.2))
              (some ((l :: (rest.takeWhile (fun p => p.2)).map
                (fun p => p.1)).getLastD blankL)) hlen' hchsplit.2.1 hok'
              (by
                intro x y b' hx hy hxb
                simp only [Option.some.injEq] at hx
                subst hx
                rw [hrunlast] at hxb
                exact absurd hxb (by simp))
            simp only [consO] at hrec
            apply chain'_consO_nb
            · rw [List.chain'_append]
              refine ⟨hchsplit.1, (List.chain'_cons'.mp hrec).2, ?_⟩
              intro x hx y hy
              rw [getLast?_cons_getLastD l blankL, Option.mem_def,
                Option.some.injEq] at hx
              subst hx
              exact (List.chain'_cons'.mp hrec).1 y hy
            · intro y hy
              simp only [List.cons_append, List.head?_cons,
                Option.some.injEq] at hy
              subst hy
              exact hl_nb
          | false =>
            rw [processTagged_true_nonblank last l m b hh hb, List.append_assoc]
            have hrec := ih (rest.dropWhile (fun p => p.2)) (some blankL)
              hlen' hchsplit.2.1 hok'
              (by
                intro x y b' hx hy _
                simp only [Option.some.injEq] at hx
                subst hx
                rw [hh, Option.some.injEq, Prod.mk.injEq] at hy
                obtain ⟨hy1, -⟩ := hy
                subst hy1
                exact hb)
            simp only [consO] at hrec
            apply chain'_consO_nb
            · rw [List.chain'_append]
              refine ⟨hchsplit.1, hrec, ?_⟩
              intro x hx y hy
              rw [getLast?_cons_getLastD l blankL, Option.mem_def,
                Option.some.injEq] at hx
              subst hx
              simp only [List.head?_cons, Option.mem_def, Option.some.injEq] at hy
              subst hy
              exact noTwoBlanks_left hrunlast
            · intro y hy
              simp only [List.cons_append, List.head?_cons,
                Option.some.injEq] at hy
              subst hy
              exact hl_nb
      | false =>
        have hch_tail : List.Chain' noTwoBlanks (rest.map (fun p => p.1)) :=
          (List.chain'_cons'.mp hch).2
        have hok_tail : runsOK false rest := hok.2.2
        cases hd : isLineDisplay l with
        | true =>
          have htr := isLineDisplay_trim_nonblank hd
          cases hh : rest.head? with
          | none =>
            rw [processTagged_disp_none last l hd hh]
            exact chain'_consO_nb last _ (List.chain'_singleton _) (fun y hy => by
              simp only [List.head?_cons, Option.some.injEq] at hy
              subst hy
              exact htr)
          | some np =>
            obtain ⟨m, b⟩ := np
            cases hb : isBlank m with
            | true =>
              rw [processTagged_disp_blank last l m b hd hh hb]
              have hrec := ih rest (some (trimB l)) h hch_tail hok_tail
                (by
                  intro x y b' hx hy hxb
                  simp only [Option.some.injEq] at hx
                  subst hx
                  rw [htr] at hxb
                  exact absurd hxb (by simp))
              simp only [consO] at hrec
              exact chain'_consO_nb last _ hrec (fun y hy => by
                simp only [List.head?_cons, Option.some.injEq] at hy
                subst hy
                exact htr)
            | false =>
              rw [processTagged_disp_nonblank last l m b hd hh hb]
              have hrec := ih rest (some blankL) h hch_tail hok_tail
                (by
                  intro x y b' hx hy _
                  simp only [Option.some.injEq] at hx
                  subst hx
                  rw [hh, Option.some.injEq, Prod.mk.injEq] at hy
                  obtain ⟨hy1, -⟩ := hy
                  subst hy1
                  exact hb)
              simp only [consO] at hrec
              apply chain'_consO_nb
              · rw [List.chain'_cons']
                refine ⟨fun y hy => ?_, hrec⟩
                simp only [List.head?_cons, Option.mem_def,
                  Option.some.injEq] at hy
                subst hy
                exact noTwoBlanks_left htr
              · intro y hy
                simp only [List.head?_cons, Option.some.injEq] at hy
                subst hy
                exact htr
        | false =>
          rw [processTagged_plain last l hd]
          have hwb : isBlank (if containsDD l then subInline l else l) =
              isBlank l := by
            cases hc : containsDD l with
            | true => simp [isBlank_subInline]
            | false => simp
          have hrec := ih rest
            (some (if containsDD l then subInline l else l)) h hch_tail hok_tail
            (by
              intro x y b' hx hy hxb
              simp only [Option.some.injEq] at hx
              subst hx
              rw [hwb] at hxb
              have hpair := (List.chain'_cons'.mp hch).1 y (by
                rw [List.head?_map, hy]
                rfl)
              cases hby : isBlank y with
              | false => rfl
              | true => exact absurd ⟨hxb, hby⟩ hpair)
          simp only [consO] at hrec
          cases last with
          | none => simpa [consO] using hrec
          | some x =>
            simp only [consO]
            rw [List.chain'_cons']
            refine ⟨?_, hrec⟩
            intro y hy
            simp only [List.head?_cons, Option.mem_def, Option.some.injEq] at hy
            subst hy
            cases hbx : isBlank x with
            | false => exact noTwoBlanks_left hbx
            | true =>
              apply noTwoBlanks_right
              rw [hwb]
              exact hinv x l false rfl rfl hbx

/-- C6: the normalization pass (rewriting loop followed by the
table/image spacing loop) never places a blank line next to an
existing one: if the input has no two adjacent blank lines, neither
does the output — every inserted blank line ends up between two
non-blank lines. -/
theorem c6_no_second_blank (doc : List Line) (h : noAdjBlanks doc) :
    noAdjBlanks (normalizeLines doc) := by
  have h1 : List.Chain' noTwoBlanks (processLines doc) := by
    have hp := processTagged_noAdj (tagBlocks doc).length (tagBlocks doc) none
      le_rfl (by rw [tagBlocks_map_fst doc.length doc le_rfl]; exact h)
      (runsOK_tagBlocks doc.length doc false le_rfl)
      (by intro x y b hx; simp at hx)
    simpa only [consO, processLines] using hp
  have h2 := spaceTables_noAdj (processLines doc).length (processLines doc) none
    le_rfl h1 (by intro x y hx; simp at hx)
  simpa only [consO, normalizeLines] using h2

/-- Witness for `c6_no_second_blank`: a blank-free-adjacent input
containing a display line and a table row that both trigger blank
insertion. -/
theorem c6_no_second_blank_witness :
    noAdjBlanks (normalizeLines
      [['a'], [], ['$', '$', 'x', '$', '$'], ['b'], ['|', 'c', '|']]) := by
  apply c6_no_second_blank
  unfold noAdjBlanks
  rw [List.chain'_cons, List.chain'_cons, List.chain'_cons, List.chain'_cons]
  refine ⟨?_, ?_, ?_, ?_, List.chain'_singleton _⟩ <;>
    · unfold noTwoBlanks
      decide

/-!  ## Splitting the rewriting loop at a given position (C1, C3, C10) -/

theorem takeWhile_append_all {α : Type} (p : α → Bool) :
    ∀ (a b : List α), (∀ x ∈ a, p x = true) →
    (a ++ b).takeWhile p = a ++ b.takeWhile p := by
  intro a
  induction a with
  | nil => intro b _; rfl
  | cons x a' ih =>
    intro b h
    rw [List.cons_append, List.takeWhile_cons_of_pos (h x (by simp)),
      ih b (fun z hz => h z (by simp [hz])), List.cons_append]

theorem dropWhile_append_all {α : Type} (p : α → Bool) :
    ∀ (a b : List α), (∀ x ∈ a, p x = true) →
    (a ++ b).dropWhile p = b.dropWhile p := by
  intro a
  induction a with
  | nil => intro b _; rfl
  | cons x a' ih =>
    intro b h
    rw [List.cons_append, List.dropWhile_cons_of_pos (h x (by simp))]
    exact ih b (fun z hz => h z (by simp [hz]))

theorem takeWhile_append_stop {α : Type} (p : α → Bool) :
    ∀ (a b : List α), (a.dropWhile p ≠ []) →
    (a ++ b).takeWhile p = a.takeWhile p := by
  intro a
  induction a with
  | nil => intro b h; exact absurd rfl h
  | cons x a' ih =>
    intro b h
    cases hp : p x with
    | true =>
      rw [List.dropWhile_cons_of_pos hp] at h
      rw [List.cons_append, List.takeWhile_cons_of_pos hp, ih b h,
        List.takeWhile_cons_of_pos hp]
    | false =>
      rw [List.cons_append, List.takeWhile_cons_of_neg (by simp [hp]),
        List.takeWhile_cons_of_neg (by simp [hp])]

theorem dropWhile_append_stop {α : Type} (p : α → Bool) :
    ∀ (a b : List α), (a.dropWhile p ≠ []) →
    (a ++ b).dropWhile p = a.dropWhile p ++ b := by
  intro a
  induction a with
  | nil => intro b h; exact absurd rfl h
  | cons x a' ih =>
    intro b h
    cases hp : p x with
    | true =>
      rw [List.dropWhile_cons_of_pos hp] at h
      rw [List.cons_append, List.dropWhile_cons_of_pos hp, ih b h,
        List.dropWhile_cons_of_pos hp]
    | false =>
      rw [List.cons_append, List.dropWhile_cons_of_neg (by simp [hp]),
        List.dropWhile_cons_of_neg (by simp [hp]), List.cons_append]

theorem getLast?_append_right {α : Type} :
    ∀ (a b : List α), b ≠ [] → (a ++ b).getLast? = b.getLast? := by
  intro a
  induction a with
  | nil => intro b _; rfl
  | cons x a' ih =>
    intro b hb
    rw [List.cons_append]
    have hne : a' ++ b ≠ [] := by
      simp [hb]
    cases hab : a' ++ b with
    | nil => exact absurd hab hne
    | cons z zs =>
      rw [List.getLast?_cons_cons, ← hab, ih b hb]

theorem dropWhile_getLast? {α : Type} (p : α → Bool) :
    ∀ (t : List α), t.dropWhile p ≠ [] →
    (t.dropWhile p).getLast? = t.getLast? := by
  intro t
  induction t with
  | nil => intro h; exact absurd rfl h
  | cons a t' ih =>
    intro h
    cases hp : p a with
    | true =>
      rw [List.dropWhile_cons_of_pos hp] at h ⊢
      have ht' : t' ≠ [] := by
        intro hc
        rw [hc] at h
        exact h rfl
      cases hte : t' with
      | nil => exact absurd hte ht'
      | cons z zs =>
        rw [← hte, ih h, hte, List.getLast?_cons_cons]
    | false =>
      rw [List.dropWhile_cons_of_neg (by simp [hp])]

/-- Glue the conditions of the split lemma across one emitted chunk
`C` whose last line is the tracked `z`. -/
theorem split_glue {C o1' : List Line} {z : Line} {v last' : Option Line}
    (hCz : C.getLast? = some z)
    (h0 : o1' = [] → last' = some z)
    (hsome : ∀ u, o1'.getLast? = some u → last' = some u) :
    ((C ++ o1') = [] → last' = v) ∧
    (∀ u, (C ++ o1').getLast? = some u → last' = some u) := by
  have hCne : C ≠ [] := by
    intro hc
    rw [hc] at hCz
    simp at hCz
  constructor
  · intro hemp
    rw [List.append_eq_nil] at hemp
    exact absurd hemp.1 hCne
  · intro u hu
    cases ho : o1' with
    | nil =>
      rw [ho, List.append_nil, hCz, Option.some.injEq] at hu
      rw [h0 ho, hu]
    | cons a as =>
      rw [getLast?_append_right C o1' (by rw [ho]; simp)] at hu
      exact hsome u hu

/-- Splitting the rewriting loop before a chosen element: processing
`tl₁ ++ hd :: tl₂` first emits some prefix `o1` for `tl₁` and then
continues exactly as processing `hd :: tl₂` with the tracked last
line `last'`, which is the last line of `o1` (or the original `last`
when `o1` is empty).  The element `hd` must not continue a flagged
run out of `tl₁` (it is unflagged, or `tl₁` ends unflagged). -/
theorem processTagged_split : ∀ (n : ℕ) (tl₁ : List (Line × Bool))
    (last : Option Line) (hd : Line × Bool) (tl₂ : List (Line × Bool)),
    tl₁.length ≤ n →
    (hd.2 = false ∨ (∀ p ∈ tl₁.getLast?, p.2 = false)) →
    ∃ (o1 : List Line) (last' : Option Line),
      processTagged last (tl₁ ++ hd :: tl₂) =
        o1 ++ processTagged last' (hd :: tl₂) ∧
      (o1 = [] → last' = last) ∧
      (∀ u, o1.getLast? = some u → last' = some u) := by
  intro n
  induction n with
  | zero =>
    intro tl₁ last hd tl₂ h _
    cases tl₁ with
    | nil => exact ⟨[], last, by simp, fun _ => rfl, fun u hu => by simp at hu⟩
    | cons x t₁ => simp at h
  | succ n ih =>
    intro tl₁ last hd tl₂ h hside
    cases tl₁ with
    | nil => exact ⟨[], last, by simp, fun _ => rfl, fun u hu => by simp at hu⟩
    | cons yp t₁ =>
      obtain ⟨y, t⟩ := yp
      simp only [List.length_cons, Nat.add_le_add_iff_right] at h
      cases t with
      | false =>
        -- the head is processed alone; recurse on t₁
        have hside' : hd.2 = false ∨ (∀ p ∈ t₁.getLast?, p.2 = false) := by
          rcases hside with hh | hh
          · exact Or.inl hh
          · right
            intro p hp
            apply hh
            cases ht₁ : t₁ with
            | nil =>
              rw [ht₁] at hp
              simp at hp
            | cons z zs =>
              rw [List.getLast?_cons_cons, ← ht₁]
              exact hp
        rw [List.cons_append]
        cases hdisp : isLineDisplay y with
        | true =>
          have hne : (t₁ ++ hd :: tl₂).head? ≠ none := by
            cases t₁ <;> simp
          cases hh : (t₁ ++ hd :: tl₂).head? with
          | none => exact absurd hh hne
          | some np =>
            obtain ⟨m, b⟩ := np
            cases hb : isBlank m with
            | true =>
              rw [processTagged_disp_blank last y m b hdisp hh hb]
              obtain ⟨o1', last', heq, h0, hsome⟩ :=
                ih t₁ (some (trimB y)) hd tl₂ h hside'
              have hCz : ((if prevNB last then [blankL] else []) ++
                  [trimB y]).getLast? = some (trimB y) := by
                rw [getLast?_append_right _ [trimB y] (by simp)]
                rfl
              refine ⟨((if prevNB last then [blankL] else []) ++ [trimB y]) ++
                o1', last', ?_, (split_glue (v := last) hCz h0 hsome).1,
                (split_glue (v := last) hCz h0 hsome).2⟩
              rw [heq]
              simp [List.append_assoc]
            | false =>
              rw [processTagged_disp_nonblank last y m b hdisp hh hb]
              obtain ⟨o1', last', heq, h0, hsome⟩ :=
                ih t₁ (some blankL) hd tl₂ h hside'
              have hCz : ((if prevNB last then [blankL] else []) ++
                  [trimB y, blankL]).getLast? = some blankL := by
                rw [getLast?_append_right _ [trimB y, blankL] (by simp)]
                rfl
              refine ⟨((if prevNB last then [blankL] else []) ++
                [trimB y, blankL]) ++ o1', last', ?_,
                (split_glue (v := last) hCz h0 hsome).1,
                (split_glue (v := last) hCz h0 hsome).2⟩
              rw [heq]
              simp [List.append_assoc]
        | false =>
          rw [processTagged_plain last y hdisp]
          obtain ⟨o1', last', heq, h0, hsome⟩ :=
            ih t₁ (some (if containsDD y then subInline y else y)) hd tl₂ h hside'
          have hCz : ([if containsDD y then subInline y else y] :
              List Line).getLast? = some (if containsDD y then subInline y
                else y) := rfl
          refine ⟨[if containsDD y then subInline y else y] ++ o1', last', ?_,
            (split_glue (v := last) hCz h0 hsome).1,
            (split_glue (v := last) hCz h0 hsome).2⟩
          rw [heq]
          simp
      | true =>
        rw [List.cons_append]
        by_cases hall : ∀ x ∈ t₁, x.2 = true
        · -- the whole of t₁ is flagged: `hd` must be unflagged and the run
          -- stops exactly at it
          have hdf : hd.2 = false := by
            rcases hside with hh | hh
            · exact hh
            · exfalso
              cases ht₁ : t₁ with
              | nil =>
                have hy := hh (y, true) (by rw [ht₁]; rfl)
                simp at hy
              | cons z zs =>
                have hne : t₁ ≠ [] := by rw [ht₁]; simp
                have hmem := List.getLast_mem (l := t₁) hne
                have hlast? : ((y, true) :: t₁).getLast? =
                    some (t₁.getLast hne) := by
                  conv_lhs => rw [ht₁]
                  rw [List.getLast?_cons_cons, ← ht₁]
                  exact List.getLast?_eq_getLast t₁ hne
                have hfalse := hh (t₁.getLast hne) (by rw [hlast?]; rfl)
                have htrue := hall (t₁.getLast hne) hmem
                rw [hfalse] at htrue
                exact absurd htrue (by simp)
          obtain ⟨hl, hb2⟩ := hd
          rw [show hb2 = false from hdf]
          have e1 : (t₁ ++ (hl, false) :: tl₂).takeWhile (fun p => p.2) = t₁ := by
            rw [takeWhile_append_all _ t₁ _ hall,
              List.takeWhile_cons_of_neg (by simp), List.append_nil]
          have e2 : (t₁ ++ (hl, false) :: tl₂).dropWhile (fun p => p.2) =
              (hl, false) :: tl₂ := by
            rw [dropWhile_append_all _ t₁ _ hall,
              List.dropWhile_cons_of_neg (by simp)]
          have hh2 : ((t₁ ++ (hl, false) :: tl₂).dropWhile
              (fun p => p.2)).head? = some (hl, false) := by
            rw [e2]; rfl
          cases hbl : isBlank hl with
          | true =>
            rw [processTagged_true_blank last y hl false hh2 hbl, e1, e2]
            refine ⟨(if prevNB last then [blankL] else []) ++
              (y :: t₁.map (fun p => p.1)),
              some ((y :: t₁.map (fun p => p.1)).getLastD blankL),
              by simp [List.append_assoc], ?_, ?_⟩
            · intro hemp
              rw [List.append_eq_nil] at hemp
              exact absurd hemp.2 (by simp)
            · intro u hu
              rw [getLast?_append_right _ _ (by simp),
                getLast?_cons_getLastD y blankL, Option.some.injEq] at hu
              rw [hu]
          | false =>
            rw [processTagged_true_nonblank last y hl false hh2 hbl, e1, e2]
            refine ⟨((if prevNB last then [blankL] else []) ++
              (y :: t₁.map (fun p => p.1))) ++ [blankL], some blankL,
              by simp [List.append_assoc], ?_, ?_⟩
            · intro hemp
              rw [List.append_eq_nil] at hemp
              exact absurd hemp.2 (by simp)
            · intro u hu
              rw [getLast?_append_right _ [blankL] (by simp)] at hu
              simp only [List.getLast?_singleton, Option.some.injEq] at hu
              rw [hu]
        · -- t₁ contains an unflagged element: the run ends inside t₁
          have hne : t₁.dropWhile (fun p => p.2) ≠ [] := by
            intro hc
            exact hall (fun x hx => List.dropWhile_eq_nil_iff.mp hc x hx)
          have hlen1 : (t₁.dropWhile (fun p => p.2)).length ≤ n :=
            le_trans (List.dropWhile_suffix (l := t₁) (fun p => p.2)).length_le h
          have ht₁ne : t₁ ≠ [] := by
            intro hc
            rw [hc] at hne
            exact hne rfl
          have hside2 : hd.2 = false ∨
              (∀ p ∈ (t₁.dropWhile (fun p => p.2)).getLast?, p.2 = false) := by
            rcases hside with hh | hh
            · exact Or.inl hh
            · right
              intro p hp
              apply hh
              rw [dropWhile_getLast? _ t₁ hne] at hp
              cases ht₁ : t₁ with
              | nil => exact absurd ht₁ ht₁ne
              | cons z zs =>
                rw [List.getLast?_cons_cons, ← ht₁]
                exact hp
          have e1 : (t₁ ++ hd :: tl₂).takeWhile (fun p => p.2) =
              t₁.takeWhile (fun p => p.2) :=
            takeWhile_append_stop _ t₁ _ hne
          have e2 : (t₁ ++ hd :: tl₂).dropWhile (fun p => p.2) =
              t₁.dropWhile (fun p => p.2) ++ hd :: tl₂ :=
            dropWhile_append_stop _ t₁ _ hne
          obtain ⟨q, t₁'', hq⟩ : ∃ q t₁'',
              t₁.dropWhile (fun p => p.2) = q :: t₁'' := by
            cases hq : t₁.dropWhile (fun p => p.2) with
            | nil => exact absurd hq hne
            | cons a b => exact ⟨a, b, rfl⟩
          have hh2 : ((t₁ ++ hd :: tl₂).dropWhile (fun p => p.2)).head? =
              some q := by
            rw [e2, hq]
            rfl
          obtain ⟨ql, qtag⟩ := q
          cases hbq : isBlank ql with
          | true =>
            rw [processTagged_true_blank last y ql qtag hh2 hbq, e1, e2]
            obtain ⟨o1', last', heq, h0, hsome⟩ := ih (t₁.dropWhile (fun p => p.2))
              (some ((y :: (t₁.takeWhile (fun p => p.2)).map
                (fun p => p.1)).getLastD blankL)) hd tl₂ hlen1 hside2
            have hCz : (((if prevNB last then [blankL] else []) ++
                (y :: (t₁.takeWhile (fun p => p.2)).map
                  (fun p => p.1)))).getLast? =
                some ((y :: (t₁.takeWhile (fun p => p.2)).map
                  (fun p => p.1)).getLastD blankL) := by
              rw [getLast?_append_right _ _ (by simp)]
              exact getLast?_cons_getLastD y blankL _
            refine ⟨((if prevNB last then [blankL] else []) ++
              (y :: (t₁.takeWhile (fun p => p.2)).map (fun p => p.1))) ++ o1',
              last', ?_, (split_glue (v := last) hCz h0 hsome).1,
              (split_glue (v := last) hCz h0 hsome).2⟩
            rw [heq]
            simp [List.append_assoc]
          | false =>
            rw [processTagged_true_nonblank last y ql qtag hh2 hbq, e1, e2]
            obtain ⟨o1', last', heq, h0, hsome⟩ := ih (t₁.dropWhile (fun p => p.2))
              (some blankL) hd tl₂ hlen1 hside2
            have hCz : ((((if prevNB last then [blankL] else []) ++
                (y :: (t₁.takeWhile (fun p => p.2)).map (fun p => p.1))) ++
                  [blankL])).getLast? = some blankL := by
              rw [getLast?_append_right _ [blankL] (by simp)]
              rfl
            refine ⟨(((if prevNB last then [blankL] else []) ++
              (y :: (t₁.takeWhile (fun p => p.2)).map (fun p => p.1))) ++
                [blankL]) ++ o1', last', ?_,
              (split_glue (v := last) hCz h0 hsome).1,
              (split_glue (v := last) hCz h0 hsome).2⟩
            rw [heq]
            simp [List.append_assoc]

/-- C10: every line of a detected multi-line display block — a maximal
run the block-detection pass flags, delimited by two marker lines — is
copied to the output of the rewriting pass verbatim, as a contiguous
sublist; in particular `subInline` is never applied to such lines.  The
run is described by its position in `tagBlocks doc`; the line before it
(when one exists) is unflagged, making the run maximal on the left. -/
theorem c10_block_lines_verbatim (doc run : List Line)
    (tl₁ tl₂ : List (Line × Bool)) (hne : run ≠ [])
    (htag : tagBlocks doc = tl₁ ++ run.map (fun l => (l, true)) ++ tl₂)
    (hside : ∀ p ∈ tl₁.getLast?, p.2 = false) :
    ∃ o1 o2, processLines doc = o1 ++ run ++ o2 := by
  cases run with
  | nil => exact absurd rfl hne
  | cons r rs =>
    have htag' : tagBlocks doc =
        tl₁ ++ (r, true) :: (rs.map (fun l => (l, true)) ++ tl₂) := by
      rw [htag]
      simp
    obtain ⟨o1', last', heq, -, -⟩ := processTagged_split tl₁.length tl₁ none
      (r, true) (rs.map (fun l => (l, true)) ++ tl₂) le_rfl (Or.inr hside)
    have hout : processLines doc = o1' ++ processTagged last'
        ((r, true) :: (rs.map (fun l => (l, true)) ++ tl₂)) := by
      rw [processLines, htag', heq]
    have hallrs : ∀ x ∈ rs.map (fun l => ((l, true) : Line × Bool)),
        x.2 = true := by
      intro x hx
      obtain ⟨l, -, hl⟩ := List.mem_map.mp hx
      rw [← hl]
    have e1 : (rs.map (fun l => ((l, true) : Line × Bool)) ++
        tl₂).takeWhile (fun p => p.2) =
        rs.map (fun l => (l, true)) ++ tl₂.takeWhile (fun p => p.2) :=
      takeWhile_append_all _ _ _ hallrs
    have e2 : (rs.map (fun l => ((l, true) : Line × Bool)) ++
        tl₂).dropWhile (fun p => p.2) = tl₂.dropWhile (fun p => p.2) :=
      dropWhile_append_all _ _ _ hallrs
    have hmap : (rs.map (fun l => ((l, true) : Line × Bool)) ++
        tl₂.takeWhile (fun p => p.2)).map (fun p => p.1) =
        rs ++ (tl₂.takeWhile (fun p => p.2)).map (fun p => p.1) := by
      simp [Function.comp_def]
    cases hh : ((tl₂.dropWhile (fun p => p.2)).head?) with
    | none =>
      have hrun := processTagged_true_none last' r (r := rs.map
        (fun l => (l, true)) ++ tl₂) (by rw [e2]; exact hh)
      rw [e1, hmap] at hrun
      refine ⟨o1' ++ (if prevNB last' then [blankL] else []),
        (tl₂.takeWhile (fun p => p.2)).map (fun p => p.1), ?_⟩
      rw [hout, hrun]
      simp [List.append_assoc]
    | some np =>
      obtain ⟨m, b⟩ := np
      cases hbm : isBlank m with
      | true =>
        have hrun := processTagged_true_blank last' r m b (r := rs.map
          (fun l => (l, true)) ++ tl₂) (by rw [e2]; exact hh) hbm
        rw [e1, e2, hmap] at hrun
        refine ⟨o1' ++ (if prevNB last' then [blankL] else []),
          (tl₂.takeWhile (fun p => p.2)).map (fun p => p.1) ++
            processTagged (some ((r :: (rs ++ (tl₂.takeWhile
              (fun p => p.2)).map (fun p => p.1))).getLastD blankL))
              (tl₂.dropWhile (fun p => p.2)), ?_⟩
        rw [hout, hrun]
        simp [List.append_assoc]
      | false =>
        have hrun := processTagged_true_nonblank last' r m b (r := rs.map
          (fun l => (l, true)) ++ tl₂) (by rw [e2]; exact hh) hbm
        rw [e1, e2, hmap] at hrun
        refine ⟨o1' ++ (if prevNB last' then [blankL] else []),
          (tl₂.takeWhile (fun p => p.2)).map (fun p => p.1) ++
            blankL :: processTagged (some blankL)
              (tl₂.dropWhile (fun p => p.2)), ?_⟩
        rw [hout, hrun]
        simp [List.append_assoc]

/-- Witness for `c10_block_lines_verbatim`: in the document
`a / $$ / x$$y$$z / $$ / b` the block detector flags the three middle
lines, and the rewriting pass copies them verbatim (the `$$y$$` pair on
the middle line is not rewritten to `$y$`). -/
theorem c10_block_lines_verbatim_witness :
    ∃ o1 o2,
      processLines [['a'], ['$', '$'], ['x', '$', '$', 'y', '$', '$', 'z'],
        ['$', '$'], ['b']] =
      o1 ++ [['$', '$'], ['x', '$', '$', 'y', '$', '$', 'z'],
        ['$', '$']] ++ o2 :=
  c10_block_lines_verbatim _
    [['$', '$'], ['x', '$', '$', 'y', '$', '$', 'z'], ['$', '$']]
    [(['a'], false)] [(['b'], false)] (by simp)
    (by simp [tagBlocks, splitAtMarker, isMarker, trimB, lstripL, rstripL,
      isSpace, dd])
    (by intro p hp; simp at hp; subst hp; rfl)

theorem containsDD_dd (x : List Char) :
    containsDD ('$' :: '$' :: x) = true := by
  simp [containsDD, splitAtDD]

theorem map_false_getLast : ∀ (xs : List Line),
    ∀ p ∈ (xs.map (fun l => ((l, false) : Line × Bool))).getLast?, p.2 = false := by
  intro xs
  induction xs with
  | nil => intro p hp; simp at hp
  | cons x xs ih =>
    intro p hp
    cases xs with
    | nil =>
      simp at hp
      rw [← hp]
    | cons y ys =>
      rw [List.map_cons, List.map_cons, List.getLast?_cons_cons] at hp
      exact ih p hp

theorem dd_not_prefix_blank : ∀ {w : Line}, isBlank w = true →
    dd.isPrefixOf w = false := by
  intro w h
  cases w with
  | nil => rfl
  | cons s ws =>
    simp only [isBlank, List.all_cons, Bool.and_eq_true] at h
    have hs := isSpace_not_dollar h.1
    have hb : ('$' == s) = false := beq_eq_false_iff_ne.mpr (fun hc => hs hc.symm)
    simp [dd, List.isPrefixOf, hb]

/-- Whenever the loop has just emitted a non-blank line and the next
input line is blank, the continuation of the main loop starts with a
blank output line (either the inserted pre-blank of a flagged run, or
the blank input line itself copied by the plain branch). -/
theorem PT_head_blank (x n : Line) (b : Bool) (tl : List (Line × Bool))
    (hx : isBlank x = false) (hn : isBlank n = true) :
    ∃ v t, processTagged (some x) ((n, b) :: tl) = v :: t ∧
      isBlank v = true := by
  have hpre : prevNB (some x) = true := by simp [prevNB, hx]
  cases b with
  | true =>
    cases hh : ((tl.dropWhile (fun p => p.2)).head?) with
    | none =>
      rw [processTagged_true_none (some x) n hh, hpre]
      exact ⟨blankL, n :: (tl.takeWhile (fun p => p.2)).map (fun p => p.1),
        by simp, isBlank_blankL⟩
    | some np =>
      obtain ⟨m2, b2⟩ := np
      cases hb2 : isBlank m2 with
      | true =>
        rw [processTagged_true_blank (some x) n m2 b2 hh hb2, hpre]
        exact ⟨blankL, (n :: (tl.takeWhile (fun p => p.2)).map (fun p => p.1)) ++
          processTagged (some ((n :: (tl.takeWhile (fun p => p.2)).map
            (fun p => p.1)).getLastD blankL)) (tl.dropWhile (fun p => p.2)),
          by simp, isBlank_blankL⟩
      | false =>
        rw [processTagged_true_nonblank (some x) n m2 b2 hh hb2, hpre]
        exact ⟨blankL, (n :: (tl.takeWhile (fun p => p.2)).map (fun p => p.1)) ++
          blankL :: processTagged (some blankL) (tl.dropWhile (fun p => p.2)),
          by simp, isBlank_blankL⟩
  | false =>
    have hdisp : isLineDisplay n = false := by
      unfold isLineDisplay
      rw [dd_not_prefix_blank (by rw [isBlank_trimB]; exact hn)]
      simp
    rw [processTagged_plain (some x) n hdisp]
    have hcd : containsDD n = false := blank_not_containsDD hn
    exact ⟨n, processTagged (some n) tl, by simp [hcd], hn⟩

/-- The output produced before a chosen line, followed by the
conditional pre-blank of the spacing code, either is empty or ends in
a blank line: the pre-blank is inserted exactly when the previously
emitted line is non-blank. -/
theorem pre_blank_cond (o1' : List Line) (last' : Option Line)
    (h0 : o1' = [] → last' = none)
    (hsome : ∀ u, o1'.getLast? = some u → last' = some u) :
    o1' ++ (if prevNB last' then [blankL] else []) = [] ∨
      ∃ u, (o1' ++ (if prevNB last' then [blankL] else [])).getLast? = some u ∧
        isBlank u = true := by
  cases hp : prevNB last' with
  | true =>
    right
    refine ⟨blankL, ?_, isBlank_blankL⟩
    show (o1' ++ [blankL]).getLast? = some blankL
    rw [getLast?_append_right _ [blankL] (by simp)]
    rfl
  | false =>
    simp only [Bool.false_eq_true, if_false, List.append_nil]
    cases ho : o1' with
    | nil => exact Or.inl rfl
    | cons z zs =>
      right
      have hgl : o1'.getLast? = some ((z :: zs).getLast (by simp)) := by
        rw [ho]
        exact List.getLast?_eq_getLast _ (by simp)
      have hlast := hsome _ hgl
      rw [hlast] at hp
      have hub : isBlank ((z :: zs).getLast (by simp)) = true := by
        simp [prevNB] at hp
        exact hp
      exact ⟨(z :: zs).getLast (by simp),
        List.getLast?_eq_getLast _ (by simp), hub⟩

theorem trimB_dd (c : Line) : trimB (dd ++ c ++ dd) = dd ++ c ++ dd := by
  have hshape : dd ++ c ++ dd = '$' :: (('$' :: c ++ ['$']) ++ ['$']) := by
    simp [dd]
  rw [hshape]
  exact trimB_no_edge_space isSpace_dollar isSpace_dollar

theorem isLineDisplay_dd {c : Line} (hc : c ≠ []) :
    isLineDisplay (dd ++ c ++ dd) = true := by
  unfold isLineDisplay
  rw [trimB_dd]
  have h1 : decide (5 ≤ (dd ++ c ++ dd).length) = true := by
    rw [decide_eq_true_iff]
    cases c with
    | nil => exact absurd rfl hc
    | cons x xs => simp [dd]
  have h2 : dd.isPrefixOf (dd ++ c ++ dd) = true := by
    simp [dd, List.isPrefixOf]
  have h3 : dd.isSuffixOf (dd ++ c ++ dd) = true := by
    simp [dd, List.isSuffixOf, List.isPrefixOf]
  rw [h1, h2, h3]
  rfl

theorem isBlank_ddline (c : Line) : isBlank (dd ++ c ++ dd) = false := by
  rw [isBlank_append]
  simp [show isBlank dd = false from by decide]

/-- C3: a line that is exactly a display-math expression — opening
marker, non-empty content, closing marker, nothing else — and is not
part of a detected multi-line block is emitted by the rewriting pass
verbatim, and in the output it is preceded and followed by a blank
line or the text boundary. -/
theorem c3_display_line_preserved (doc : List Line) (tl₁ tl₂ : List (Line × Bool))
    (c : Line) (hc : c ≠ [])
    (htag : tagBlocks doc = tl₁ ++ (dd ++ c ++ dd, false) :: tl₂)
    (hside : ∀ p ∈ tl₁.getLast?, p.2 = false) :
    ∃ o1 o2, processLines doc = o1 ++ (dd ++ c ++ dd) :: o2 ∧
      (o1 = [] ∨ ∃ u, o1.getLast? = some u ∧ isBlank u = true) ∧
      (o2 = [] ∨ ∃ v, o2.head? = some v ∧ isBlank v = true) := by
  obtain ⟨o1', last', heq, h0, hsome⟩ := processTagged_split tl₁.length tl₁ none
    (dd ++ c ++ dd, false) tl₂ le_rfl (Or.inr hside)
  have hdisp := isLineDisplay_dd hc
  have hout : processLines doc = o1' ++ processTagged last'
      ((dd ++ c ++ dd, false) :: tl₂) := by
    rw [processLines, htag, heq]
  have hblank := pre_blank_cond o1' last' h0 hsome
  have hlb : isBlank (dd ++ c ++ dd) = false := isBlank_ddline c
  cases hh : tl₂.head? with
  | none =>
    rw [processTagged_disp_none last' _ hdisp hh, trimB_dd] at hout
    refine ⟨o1' ++ (if prevNB last' then [blankL] else []), [], ?_, hblank,
      Or.inl rfl⟩
    rw [hout]
    simp [List.append_assoc]
  | some np =>
    obtain ⟨nn, b⟩ := np
    obtain ⟨tl₂', htl⟩ : ∃ tl₂', tl₂ = (nn, b) :: tl₂' := by
      cases tl₂ with
      | nil => simp at hh
      | cons q qs =>
        simp at hh
        exact ⟨qs, by rw [hh]⟩
    cases hbn : isBlank nn with
    | true =>
      rw [processTagged_disp_blank last' _ nn b hdisp hh hbn, trimB_dd] at hout
      obtain ⟨v, t, hvt, hv⟩ := PT_head_blank (dd ++ c ++ dd) nn b tl₂' hlb hbn
      refine ⟨o1' ++ (if prevNB last' then [blankL] else []),
        processTagged (some (dd ++ c ++ dd)) tl₂, ?_, hblank, ?_⟩
      · rw [hout]
        simp [List.append_assoc]
      · right
        rw [htl, hvt]
        exact ⟨v, rfl, hv⟩
    | false =>
      rw [processTagged_disp_nonblank last' _ nn b hdisp hh hbn, trimB_dd] at hout
      refine ⟨o1' ++ (if prevNB last' then [blankL] else []),
        blankL :: processTagged (some blankL) tl₂, ?_, hblank,
        Or.inr ⟨blankL, rfl, isBlank_blankL⟩⟩
      rw [hout]
      simp [List.append_assoc]

/-- Witness for `c3_display_line_preserved`: the single line `$$c$$` is
kept verbatim, with the text boundary on both sides. -/
theorem c3_display_line_preserved_witness :
    ∃ o1 o2, processLines [['$', '$', 'c', '$', '$']] =
      o1 ++ (dd ++ ['c'] ++ dd) :: o2 ∧
      (o1 = [] ∨ ∃ u, o1.getLast? = some u ∧ isBlank u = true) ∧
      (o2 = [] ∨ ∃ v, o2.head? = some v ∧ isBlank v = true) :=
  c3_display_line_preserved _ [] [] ['c'] (by simp)
    (by simp +decide [tagBlocks, splitAtMarker, isMarker, trimB, lstripL,
      rstripL, isSpace, dd])
    (by intro p hp; simp at hp)

/-- C1 counterexample: the line `$$c$$x$$` contains the marker pair
`$$c$$` with the non-empty text `x$$` after it, so the claim predicts
the pair is rewritten to `$c$`; but the whole-line display pattern of
converter.py line 81 matches this line first (greedily, with content
`c$$x`), so the line is emitted verbatim and the pair survives —
although the inline substitution would have changed it. -/
theorem c1_counterexample :
    (['$', '$', 'c', '$', '$', 'x', '$', '$'] : Line) =
      [] ++ '$' :: '$' :: (['c'] ++ '$' :: '$' :: ['x', '$', '$']) ∧
    (['x', '$', '$'] : Line) ≠ [] ∧
    subInline ['$', '$', 'c', '$', '$', 'x', '$', '$'] ≠
      ['$', '$', 'c', '$', '$', 'x', '$', '$'] ∧
    processLines [['$', '$', 'c', '$', '$', 'x', '$', '$']] =
      [['$', '$', 'c', '$', '$', 'x', '$', '$']] := by
  refine ⟨rfl, by simp, ?_, ?_⟩
  · simp +decide [subInline, splitCloser, splitAtDD]
  · simp +decide [processLines, tagBlocks, splitAtMarker, processTagged,
      isMarker, trimB, lstripL, rstripL, isSpace, dd, isLineDisplay, isBlank,
      List.isPrefixOf, List.isSuffixOf]

/-- C1 amended: on an ordinary line — one not matching the whole-line
display pattern and not inside a detected block — of shape
`pre $$ c $$ post`, where `pre` holds no pair and does not end in `$`,
and the non-empty content `c` holds no pair and does not end in `$`
(the lazy-match conditions of `re.sub(r"\$\$(.+?)\$\$", …)`), the
rewriting pass emits the line with the pair in inline form, `pre`
unchanged, and the substitution continued on `post`. -/
theorem c1_amended_inline_rewrite (doc : List Line)
    (tl₁ tl₂ : List (Line × Bool)) (pre c post : Line)
    (htag : tagBlocks doc =
      tl₁ ++ (pre ++ '$' :: '$' :: (c ++ '$' :: '$' :: post), false) :: tl₂)
    (hside : ∀ p ∈ tl₁.getLast?, p.2 = false)
    (hdisp : isLineDisplay (pre ++ '$' :: '$' :: (c ++ '$' :: '$' :: post)) = false)
    (hpre : containsDD (pre ++ ['$']) = false)
    (hc0 : c ≠ []) (hcdd : containsDD (c ++ ['$']) = false) :
    ∃ o1 o2, processLines doc =
      o1 ++ (pre ++ '$' :: (c ++ '$' :: subInline post)) :: o2 := by
  obtain ⟨o1', last', heq, -, -⟩ := processTagged_split tl₁.length tl₁ none
    (pre ++ '$' :: '$' :: (c ++ '$' :: '$' :: post), false) tl₂ le_rfl
    (Or.inr hside)
  have hcd : containsDD (pre ++ '$' :: '$' :: (c ++ '$' :: '$' :: post)) = true :=
    containsDD_append_right _ _ (containsDD_dd _)
  have hw : (if containsDD (pre ++ '$' :: '$' :: (c ++ '$' :: '$' :: post)) then
      subInline (pre ++ '$' :: '$' :: (c ++ '$' :: '$' :: post))
      else pre ++ '$' :: '$' :: (c ++ '$' :: '$' :: post)) =
      pre ++ '$' :: (c ++ '$' :: subInline post) := by
    rw [if_pos hcd]
    exact subInline_rewrite hpre hc0 hcdd
  refine ⟨o1',
    processTagged (some (pre ++ '$' :: (c ++ '$' :: subInline post))) tl₂, ?_⟩
  rw [processLines, htag, heq, processTagged_plain last' _ hdisp, hw]

/-- Witness for `c1_amended_inline_rewrite`: the ordinary line
`a$$b$$c` becomes `a$b$c`. -/
theorem c1_amended_inline_rewrite_witness :
    ∃ o1 o2, processLines [['a', '$', '$', 'b', '$', '$', 'c']] =
      o1 ++ (['a'] ++ '$' :: (['b'] ++ '$' :: subInline ['c'])) :: o2 :=
  c1_amended_inline_rewrite _ [] [] ['a'] ['b'] ['c']
    (by simp +decide [tagBlocks, splitAtMarker, isMarker, trimB, lstripL,
      rstripL, isSpace, dd])
    (by intro p hp; simp at hp)
    (by decide) (by decide) (by decide) (by decide)

theorem blank_splitCloser_none : ∀ {w : List Char}, isBlank w = true →
    splitCloser w = none := by
  intro w h
  cases w with
  | nil => rfl
  | cons a rest =>
    rw [isBlank_cons, Bool.and_eq_true] at h
    have hcd : containsDD rest = false := blank_not_containsDD h.2
    have hnone : splitAtDD rest = none := by
      cases hs : splitAtDD rest with
      | none => rfl
      | some p => simp [containsDD, hs] at hcd
    simp [splitCloser, hnone]

/-- A marker line (`$$` with optional surrounding whitespace) passes
through the inline substitution unchanged: the scan finds the opening
`$$` but no closing pair follows, so nothing is rewritten. -/
theorem marker_subInline {m : Line} (hm : isMarker m = true) :
    subInline m = m := by
  have htr : trimB m = dd := by simpa [isMarker] using hm
  obtain ⟨w1, w2, hdec, hw1, hw2⟩ := trimB_decomp m
  rw [htr] at hdec
  have hshape : w1 ++ dd ++ w2 = w1 ++ ('$' :: '$' :: w2) := by simp [dd]
  rw [hdec, hshape, subInline_append_clean (blank_dollar_not_containsDD hw1)]
  rw [subInline_dd_none (l := '$' :: w2) rfl
    (by rw [List.tail_cons]; exact blank_splitCloser_none hw2)]
  rw [List.tail_cons, subInline_of_not_containsDD (blank_not_containsDD hw2)]

theorem splitAtMarker_none : ∀ {ls : List Line},
    (∀ l ∈ ls, isMarker l = false) → splitAtMarker ls = none := by
  intro ls
  induction ls with
  | nil => intro _; rfl
  | cons l rest ih =>
    intro h
    simp only [splitAtMarker]
    rw [if_neg (by simp [h l (by simp)]), ih (fun x hx => h x (by simp [hx]))]
    rfl

theorem tagBlocks_no_marker_prefix : ∀ (pre rest : List Line),
    (∀ l ∈ pre, isMarker l = false) →
    tagBlocks (pre ++ rest) = pre.map (fun x => (x, false)) ++ tagBlocks rest := by
  intro pre
  induction pre with
  | nil => intro rest _; rfl
  | cons x xs ih =>
    intro rest h
    rw [List.cons_append, tagBlocks_not_marker (h x (by simp)),
      ih rest (fun z hz => h z (by simp [hz])), List.map_cons, List.cons_append]

/-- C7: when a marker line opens a block that is never closed — no
marker line follows it — the block-detection pass flags nothing from
that opener onward (nor before it, when no earlier marker exists), the
pass terminates normally, and the opening marker line itself is
emitted by the rewriting pass unchanged. -/
theorem c7_unterminated_marker (doc preL rest : List Line) (m : Line)
    (hdoc : doc = preL ++ m :: rest)
    (hm : isMarker m = true)
    (hpre : ∀ l ∈ preL, isMarker l = false)
    (hrest : ∀ l ∈ rest, isMarker l = false) :
    tagBlocks doc = preL.map (fun x => (x, false)) ++
      (m, false) :: rest.map (fun x => (x, false)) ∧
    ∃ o1 o2, processLines doc = o1 ++ m :: o2 := by
  have htb : tagBlocks doc = preL.map (fun x => (x, false)) ++
      (m, false) :: rest.map (fun x => (x, false)) := by
    rw [hdoc, tagBlocks_no_marker_prefix preL _ hpre,
      tagBlocks_marker_none hm (splitAtMarker_none hrest)]
  refine ⟨htb, ?_⟩
  obtain ⟨o1', last', heq, -, -⟩ := processTagged_split
    (preL.map (fun x => ((x, false) : Line × Bool))).length
    (preL.map (fun x => (x, false))) none (m, false)
    (rest.map (fun x => (x, false))) le_rfl (Or.inr (map_false_getLast preL))
  have hdisp : isLineDisplay m = false := by
    unfold isLineDisplay
    have htr : trimB m = dd := by simpa [isMarker] using hm
    rw [htr]
    simp [dd]
  have hw : (if containsDD m then subInline m else m) = m := by
    cases hcdm : containsDD m with
    | true => simp [marker_subInline hm]
    | false => simp
  refine ⟨o1', processTagged (some m)
    (rest.map (fun x => (x, false))), ?_⟩
  rw [processLines, htb, heq, processTagged_plain last' m hdisp, hw]

/-- Witness for `c7_unterminated_marker`: in `a / $$ / x` the opening
marker is never closed; nothing is flagged and the marker line passes
through. -/
theorem c7_unterminated_marker_witness :
    tagBlocks [['a'], ['$', '$'], ['x']] =
      [['a']].map (fun x => (x, false)) ++
      (['$', '$'], false) :: [['x']].map (fun x => (x, false)) ∧
    ∃ o1 o2, processLines [['a'], ['$', '$'], ['x']] =
      o1 ++ ['$', '$'] :: o2 :=
  c7_unterminated_marker _ [['a']] [['x']] ['$', '$'] rfl (by decide)
    (by intro l hl; simp at hl; rw [hl]; decide)
    (by intro l hl; simp at hl; rw [hl]; decide)

end ReportDraft
